import Mathlib

/-!
Verification of the leveldb core against its specification.

Shallow embedding of the relevant source files:
  * `util/coding.cc`        — fixed/varint byte codecs (namespace `Coding`)
  * `db/write_batch.cc`     — WriteBatch layout and iteration (namespace `WriteBatch`)
  * `util/comparator.cc`    — BytewiseComparatorImpl (namespace `Comparator`)
  * `util/cache.cc`         — LRUCache shard (namespace `LRU`)
  * `db/log_reader.cc`      — log Reader state machine (namespace `LogReader`)
  * `table/table_builder.cc`— TableBuilder::Add (namespace `TableB`)

Byte strings are modelled as `List Nat` with each element < 256; machine
integer overflow is modelled with explicit `% 2^32` / `% 2^64` where the
source relies on unsigned wraparound.
-/


namespace Coding

/-- `EncodeFixed32` (util/coding.cc): little-endian 4-byte encoding. -/
def encodeFixed32 (v : Nat) : List Nat :=
  [v % 256, (v / 2^8) % 256, (v / 2^16) % 256, (v / 2^24) % 256]

/-- `DecodeFixed32` (util/coding.h): little-endian 4-byte decode of the first
four bytes. -/
def decodeFixed32 (l : List Nat) : Nat :=
  (l.getD 0 0) % 256 + ((l.getD 1 0) % 256) * 2^8 +
    ((l.getD 2 0) % 256) * 2^16 + ((l.getD 3 0) % 256) * 2^24

/-- `EncodeFixed64` (util/coding.cc): little-endian 8-byte encoding. -/
def encodeFixed64 (v : Nat) : List Nat :=
  [v % 256, (v / 2^8) % 256, (v / 2^16) % 256, (v / 2^24) % 256,
   (v / 2^32) % 256, (v / 2^40) % 256, (v / 2^48) % 256, (v / 2^56) % 256]

/-- `DecodeFixed64` (util/coding.h). -/
def decodeFixed64 (l : List Nat) : Nat :=
  (l.getD 0 0) % 256 + ((l.getD 1 0) % 256) * 2^8 +
    ((l.getD 2 0) % 256) * 2^16 + ((l.getD 3 0) % 256) * 2^24 +
    ((l.getD 4 0) % 256) * 2^32 + ((l.getD 5 0) % 256) * 2^40 +
    ((l.getD 6 0) % 256) * 2^48 + ((l.getD 7 0) % 256) * 2^56

/-- `EncodeVarint32` (util/coding.cc): the five explicit ranges of the source.
Each emitted byte is the value of the `unsigned char` store in the source. -/
def encodeVarint32 (v : Nat) : List Nat :=
  if v < 2^7 then [v % 256]
  else if v < 2^14 then [(v ||| 128) % 256, (v >>> 7) % 256]
  else if v < 2^21 then [(v ||| 128) % 256, ((v >>> 7) ||| 128) % 256, (v >>> 14) % 256]
  else if v < 2^28 then
    [(v ||| 128) % 256, ((v >>> 7) ||| 128) % 256, ((v >>> 14) ||| 128) % 256,
     (v >>> 21) % 256]
  else
    [(v ||| 128) % 256, ((v >>> 7) ||| 128) % 256, ((v >>> 14) ||| 128) % 256,
     ((v >>> 21) ||| 128) % 256, (v >>> 28) % 256]

/-- `GetVarint32PtrFallback` (util/coding.cc): reads up to five bytes
(`shift ≤ 28`), accumulating into a `uint32_t` result; returns the decoded
value and the remaining input, or `none` on an unterminated varint.
`shift` counts 0, 7, 14, 21, 28. -/
def getVarint32Loop : Nat → Nat → List Nat → Option (Nat × List Nat)
  | _, _, [] => none
  | shift, acc, b :: rest =>
    if shift ≤ 28 then
      if b % 256 ≥ 128 then
        getVarint32Loop (shift + 7) ((acc ||| (((b % 256) &&& 127) <<< shift)) % 2^32) rest
      else
        some ((acc ||| ((b % 256) <<< shift)) % 2^32, rest)
    else none

/-- `GetVarint32` on a slice (util/coding.cc). -/
def getVarint32 (input : List Nat) : Option (Nat × List Nat) :=
  getVarint32Loop 0 0 input

/-- `PutLengthPrefixedSlice` (util/coding.cc): varint32 length then the bytes.
`value.size()` is passed as `uint32_t`, hence the `% 2^32`. -/
def putLengthPrefixedSlice (value : List Nat) : List Nat :=
  encodeVarint32 (value.length % 2^32) ++ value

/-- `GetLengthPrefixedSlice` on a slice (util/coding.cc). -/
def getLengthPrefixedSlice (input : List Nat) : Option (List Nat × List Nat) :=
  match getVarint32 input with
  | some (len, rest) =>
    if len ≤ rest.length then some (rest.take len, rest.drop len) else none
  | none => none

end Coding

namespace WB

/-- `kTypeValue` (db/dbformat.h). -/
def kTypeValue : Nat := 1

/-- `kTypeDeletion` (db/dbformat.h). -/
def kTypeDeletion : Nat := 0

/-- `kHeader` (db/write_batch.cc): 8-byte sequence + 4-byte count. -/
def kHeader : Nat := 12

/-- `WriteBatch::Clear()`: the representation becomes 12 zero bytes. -/
def clear : List Nat := List.replicate kHeader 0

/-- `WriteBatchInternal::Count`: fixed32 at offset 8. -/
def count (rep : List Nat) : Nat := Coding.decodeFixed32 (rep.drop 8)

/-- `WriteBatchInternal::SetCount`: overwrite the fixed32 at offset 8. -/
def setCount (rep : List Nat) (n : Nat) : List Nat :=
  rep.take 8 ++ Coding.encodeFixed32 n ++ rep.drop 12

/-- `WriteBatchInternal::Sequence`: fixed64 at offset 0. -/
def sequence (rep : List Nat) : Nat := Coding.decodeFixed64 rep

/-- `WriteBatchInternal::SetSequence`: overwrite the fixed64 at offset 0. -/
def setSequence (rep : List Nat) (s : Nat) : List Nat :=
  Coding.encodeFixed64 s ++ rep.drop 8

/-- `WriteBatch::Put(key, value)` (db/write_batch.cc). -/
def put (rep : List Nat) (key value : List Nat) : List Nat :=
  setCount rep (count rep + 1) ++ [kTypeValue] ++
    Coding.putLengthPrefixedSlice key ++ Coding.putLengthPrefixedSlice value

/-- `WriteBatch::Delete(key)` (db/write_batch.cc). -/
def delete (rep : List Nat) (key : List Nat) : List Nat :=
  setCount rep (count rep + 1) ++ [kTypeDeletion] ++ Coding.putLengthPrefixedSlice key

/-- A handler callback recorded during `WriteBatch::Iterate`. -/
inductive HOp where
  | put (key value : List Nat)
  | del (key : List Nat)
deriving DecidableEq, Repr

/-- Batch iteration status (`Status` restricted to what Iterate produces). -/
inductive WStatus where
  | ok
  | corruption (msg : String)
deriving DecidableEq, Repr

/-- The record-walking loop of `WriteBatch::Iterate`.  Returns the handler
callbacks made (in order), the final `found` counter, and the corruption
message if a record was malformed.  The loop consumes at least one byte (the
tag) per iteration, so `fuel = input.length` always suffices; the out-of-fuel
branch is unreachable whenever `input.length ≤ fuel`. -/
def iterateLoop : Nat → List Nat → List HOp → Nat → (List HOp × Nat × Option String)
  | _, [], acc, found => (acc, found, none)
  | 0, _ :: _, acc, found => (acc, found, some "out of fuel")
  | fuel + 1, tag :: rest, acc, found =>
    if tag = kTypeValue then
      match Coding.getLengthPrefixedSlice rest with
      | some (key, r1) =>
        match Coding.getLengthPrefixedSlice r1 with
        | some (value, r2) => iterateLoop fuel r2 (acc ++ [.put key value]) (found + 1)
        | none => (acc, found + 1, some "bad WriteBatch Put")
      | none => (acc, found + 1, some "bad WriteBatch Put")
    else if tag = kTypeDeletion then
      match Coding.getLengthPrefixedSlice rest with
      | some (key, r1) => iterateLoop fuel r1 (acc ++ [.del key]) (found + 1)
      | none => (acc, found + 1, some "bad WriteBatch Delete")
    else (acc, found + 1, some "unknown WriteBatch tag")

/-- `WriteBatch::Iterate(handler)` (db/write_batch.cc). -/
def iterate (rep : List Nat) : List HOp × WStatus :=
  if rep.length < kHeader then ([], .corruption "malformed WriteBatch (too small)")
  else
    match iterateLoop (rep.drop kHeader).length (rep.drop kHeader) [] 0 with
    | (acc, _, some msg) => (acc, .corruption msg)
    | (acc, found, none) =>
      if found ≠ count rep then (acc, .corruption "WriteBatch has wrong count")
      else (acc, .ok)

/-- Arguments of one `MemTable::Add` call recorded by `MemTableInserter`. -/
structure MemAdd where
  seq : Nat
  type : Nat
  key : List Nat
  value : List Nat
deriving DecidableEq, Repr

/-- `MemTableInserter` (db/write_batch.cc): calls `mem_->Add(sequence_, t, k, v)`
and increments `sequence_` (a `uint64_t`, hence the `% 2^64`) per callback. -/
def applyInserter : List HOp → Nat → List MemAdd
  | [], _ => []
  | .put k v :: rest, seq => ⟨seq % 2^64, kTypeValue, k, v⟩ :: applyInserter rest (seq + 1)
  | .del k :: rest, seq => ⟨seq % 2^64, kTypeDeletion, k, []⟩ :: applyInserter rest (seq + 1)

/-- `WriteBatchInternal::InsertInto` (db/write_batch.cc): iterate the batch
into a `MemTableInserter` whose sequence starts at the batch header value. -/
def insertInto (rep : List Nat) : List MemAdd × WStatus :=
  ((applyInserter (iterate rep).1 (sequence rep)), (iterate rep).2)

/-- Serialization of one batch record, per the `WriteBatch::rep_` layout
comment at the top of db/write_batch.cc. -/
def encodeRecord : HOp → List Nat
  | .put k v => kTypeValue ::
      (Coding.putLengthPrefixedSlice k ++ Coding.putLengthPrefixedSlice v)
  | .del k => kTypeDeletion :: Coding.putLengthPrefixedSlice k

/-- Size bounds under which a record round-trips (`PutVarint32` receives the
sizes as `uint32_t`). -/
def recOk : HOp → Prop
  | .put k v => k.length < 2^32 ∧ v.length < 2^32
  | .del k => k.length < 2^32

instance : DecidablePred recOk := fun r => by
  cases r <;> (unfold recOk; infer_instance)

/-- A well-formed batch representation: 8-byte sequence `s`, 4-byte count
equal to the number of records, then the serialized records in order. -/
def wellFormed (rep : List Nat) (s : Nat) (records : List HOp) : Prop :=
  rep = Coding.encodeFixed64 s ++ Coding.encodeFixed32 records.length ++
        (records.map encodeRecord).flatten ∧
  s < 2^64 ∧ records.length < 2^32 ∧ ∀ r ∈ records, recOk r

instance (rep : List Nat) (s : Nat) (records : List HOp) :
    Decidable (wellFormed rep s records) := by
  unfold wellFormed
  infer_instance

/-- Reference full parse of a record region (fueled like `iterateLoop`):
`some ops` iff the region is a clean sequence of records. -/
def parseAll : Nat → List Nat → Option (List HOp)
  | _, [] => some []
  | 0, _ :: _ => none
  | fuel + 1, tag :: rest =>
    if tag = kTypeValue then
      match Coding.getLengthPrefixedSlice rest with
      | some (key, r1) =>
        match Coding.getLengthPrefixedSlice r1 with
        | some (value, r2) => (parseAll fuel r2).map (.put key value :: ·)
        | none => none
      | none => none
    else if tag = kTypeDeletion then
      match Coding.getLengthPrefixedSlice rest with
      | some (key, r1) => (parseAll fuel r1).map (.del key :: ·)
      | none => none
    else none

/-- Full parse with the canonical fuel. -/
def parseRecords (input : List Nat) : Option (List HOp) :=
  parseAll input.length input

end WB

namespace Comparator

/-- Modelled from the spec: bytewise lexicographic order on byte strings
(§4.3 "Bytewise lexicographic order"); `Slice::compare` itself is not among
the sources.  `bytesLtb a b = true` iff `a` sorts strictly before `b`:
first differing byte decides; a proper prefix sorts first. -/
def bytesLtb : List Nat → List Nat → Bool
  | [], [] => false
  | [], _ :: _ => true
  | _ :: _, [] => false
  | a :: as, b :: bs => if a < b then true else if b < a then false else bytesLtb as bs

/-- Strict bytewise order as a proposition. -/
def bytesLt (a b : List Nat) : Prop := bytesLtb a b = true

instance (a b : List Nat) : Decidable (bytesLt a b) := by
  unfold bytesLt
  infer_instance

/-- Reflexive bytewise order. -/
def bytesLe (a b : List Nat) : Prop := bytesLt a b ∨ a = b

/-- The `diff_index` loop of `FindShortestSeparator` (util/comparator.cc):
length of the common prefix. -/
def commonPrefixLen : List Nat → List Nat → Nat
  | a :: as, b :: bs => if a = b then commonPrefixLen as bs + 1 else 0
  | _, _ => 0

/-- `BytewiseComparatorImpl::FindShortestSeparator` (util/comparator.cc):
if `start` and `limit` share a proper prefix and the first differing byte of
`start` can be incremented to stay below `limit`'s byte, increment it and
truncate; otherwise return `start` unchanged. -/
def findShortestSeparator (start limit : List Nat) : List Nat :=
  let minLength := min start.length limit.length
  let diffIndex := commonPrefixLen start limit
  if diffIndex ≥ minLength then
    start
  else
    let diffByte := start.getD diffIndex 0
    if diffByte < 255 ∧ diffByte + 1 < limit.getD diffIndex 0 then
      start.take diffIndex ++ [diffByte + 1]
    else
      start

end Comparator

namespace TableB

/-- The block-size option: `Options::block_size` defaults to 4096
(spec §4.6: "default 4 KiB"). -/
def blockSize : Nat := 4096

/-- Modelled from the spec: `BlockBuilder::CurrentSizeEstimate` for a data
block (block_builder.cc is not among the sources).  §3: entries are
varint-framed key/value bytes, one 4-byte restart point per 16 entries, and
a trailing 4-byte restart count.  Only its value on the empty block matters
below, since this `TableBuilder::Add` never appends to the data block. -/
def blockSizeEstimate (entries : List (List Nat × List Nat)) : Nat :=
  (entries.map (fun e => e.1.length + e.2.length + 6)).sum
    + 4 * (entries.length / 16 + 1) + 4

/-- The `TableBuilder::Rep` fields that `Add`/`Flush` manipulate
(table_builder.cc).  `dataBlock` holds the entries of the data block under
construction (modelled from the spec, block_builder.cc being absent);
`written` the data blocks flushed to the file, in order; `indexKeys` the
keys added to the index block; `filterKeys` the keys fed to the filter
block builder. -/
structure TB where
  dataBlock : List (List Nat × List Nat)
  written : List (List (List Nat × List Nat))
  indexKeys : List (List Nat)
  filterKeys : List (List Nat)
  lastKey : List Nat
  numEntries : Nat
  pendingIndexEntry : Bool
deriving DecidableEq, Repr

/-- A fresh builder (`TableBuilder::Rep::Rep`): no entries, no pending index
entry, empty `last_key`. -/
def init : TB :=
  { dataBlock := [], written := [], indexKeys := [], filterKeys := [],
    lastKey := [], numEntries := 0, pendingIndexEntry := false }

/-- `TableBuilder::Flush` (table_builder.cc): write the current data block
if non-empty, set the pending-index flag. -/
def flush (t : TB) : TB :=
  if t.dataBlock = [] then t
  else
    { t with
      written := t.written ++ [t.dataBlock]
      dataBlock := []
      pendingIndexEntry := true }

/-- `TableBuilder::Add(key, value)` (table_builder.cc).  Steps as in the
source: (1) if an index entry is pending, shorten `last_key` against `key`
and append it to the index block; (2) feed `key` to the filter builder;
(3) record `key` into `last_key` and increment the entry count — the call
`r->data_block.Add(key, value)` is commented out at line 188, so nothing is
appended to the data block; (4) flush if the data block's size estimate
reached `block_size`. -/
def add (t : TB) (key value : List Nat) : TB :=
  let t1 := if t.pendingIndexEntry then
      { t with
        indexKeys := t.indexKeys ++ [Comparator.findShortestSeparator t.lastKey key]
        pendingIndexEntry := false }
    else t
  let t2 := { t1 with filterKeys := t1.filterKeys ++ [key] }
  let t3 := { t2 with lastKey := key, numEntries := t2.numEntries + 1 }
  if blockSizeEstimate t3.dataBlock ≥ blockSize then flush t3 else t3

end TableB

namespace LRU

structure CEntry where
  key : Nat
  charge : Nat
  refs : Nat
deriving DecidableEq, Repr

def getE : List (Nat × CEntry) → Nat → Option CEntry
  | [], _ => none
  | (i, e) :: rest, id => if i = id then some e else getE rest id

def setRefs : List (Nat × CEntry) → Nat → Nat → List (Nat × CEntry)
  | [], _, _ => []
  | (i, e) :: rest, id, r =>
    if i = id then (i, { e with refs := r }) :: rest
    else (i, e) :: setRefs rest id r

def removeE : List (Nat × CEntry) → Nat → List (Nat × CEntry)
  | [], _ => []
  | (i, e) :: rest, id => if i = id then rest else (i, e) :: removeE rest id

def sumCharges (l : List (Nat × CEntry)) : Nat :=
  (l.map (fun p => p.2.charge)).sum

/-- One `LRUCache` shard (util/cache.cc).  `entries` holds every allocated
(not yet freed) handle, keyed by an allocation id; `lru` is the circular
list `lru_` as a list of ids, oldest (`lru_.next`) first, newest
(`lru_.prev`) last.  In this source every `table_.Insert/Remove` is paired
with an `LRU_Append/LRU_Remove` of the same handle, so membership in the
hash table coincides with membership in `lru` and the model uses `lru` as
the table's key set. -/
structure Shard where
  capacity : Nat
  usage : Nat
  entries : List (Nat × CEntry)
  lru : List Nat
  nextId : Nat
deriving DecidableEq, Repr

/-- `LRUCache::Unref` (util/cache.cc): decrement `refs`; at zero, subtract
the charge from `usage`, run the deleter and free the handle. -/
def unref (s : Shard) (id : Nat) : Shard :=
  match getE s.entries id with
  | none => s
  | some e =>
    if e.refs ≤ 1 then
      { s with entries := removeE s.entries id, usage := s.usage - e.charge }
    else
      { s with entries := setRefs s.entries id (e.refs - 1) }

/-- `LRUCache::LRU_Remove`. -/
def lruRemove (s : Shard) (id : Nat) : Shard := { s with lru := s.lru.erase id }

/-- `LRUCache::LRU_Append`: insert just before the dummy head, i.e. at the
newest end. -/
def lruAppend (s : Shard) (id : Nat) : Shard := { s with lru := s.lru ++ [id] }

/-- `HandleTable::Lookup` by key: the id of the cached entry with this key,
if any (the table's membership coincides with the `lru` list, see `Shard`). -/
def findKey (s : Shard) (k : Nat) : Option Nat :=
  s.lru.find? (fun id =>
    match getE s.entries id with
    | some e => e.key == k
    | none => false)

/-- The eviction loop of `LRUCache::Insert`:
`while (usage_ > capacity_ && lru_.next != &lru_)` evict the oldest entry
(remove it from the table and the list, then `Unref`).  Each iteration pops
the head of `lru`, so `fuel = lru.length` always suffices. -/
def evictLoop : Nat → Shard → Shard
  | 0, s => s
  | fuel + 1, s =>
    if s.capacity < s.usage then
      match s.lru with
      | [] => s
      | oldId :: tl => evictLoop fuel (unref { s with lru := tl } oldId)
    else s

/-- `LRUCache::Insert` (util/cache.cc): allocate the entry with `refs = 2`
(one for the cache, one for the returned handle), append it at the newest
end, add its charge to `usage`, displace any cached entry with the same key
(the displaced entry is detached and unref'd), then run the eviction loop.
The hash-table probe for the displaced entry is done before the new entry is
appended; `table_.Insert` can only ever return a previously inserted
same-key entry, so this matches the source's probe-after-append. -/
def insert (s : Shard) (k c : Nat) : Nat × Shard :=
  let id := s.nextId
  let old := findKey s k
  let s1 : Shard :=
    { s with
      entries := s.entries ++ [(id, { key := k, charge := c, refs := 2 })]
      lru := s.lru ++ [id]
      usage := s.usage + c
      nextId := id + 1 }
  let s2 := match old with
    | some oldId => unref (lruRemove s1 oldId) oldId
    | none => s1
  (id, evictLoop s2.lru.length s2)

/-- `LRUCache::Lookup` (util/cache.cc): find by key; on a hit increment
`refs` and move the entry to the newest end of the list. -/
def lookup (s : Shard) (k : Nat) : Option Nat × Shard :=
  match findKey s k with
  | none => (none, s)
  | some id =>
    match getE s.entries id with
    | none => (none, s)
    | some e =>
      (some id,
        lruAppend (lruRemove { s with entries := setRefs s.entries id (e.refs + 1) } id) id)

/-- `LRUCache::Release(handle)` calls `Unref`.  Per the cache's API contract
a client releases only a handle it holds: a live entry with at least one
reference beyond the cache's own (the cache holds one reference while the
entry is on the `lru` list); an illegal release leaves the state unchanged. -/
def release (s : Shard) (id : Nat) : Shard :=
  match getE s.entries id with
  | none => s
  | some e =>
    if (if id ∈ s.lru then 2 ≤ e.refs else 1 ≤ e.refs) then unref s id else s

/-- `LRUCache::Erase` (util/cache.cc): remove from the table, detach from
the list, `Unref`. -/
def erase (s : Shard) (k : Nat) : Shard :=
  match findKey s k with
  | none => s
  | some id => unref (lruRemove s id) id

/-- The traversal of `LRUCache::Prune` over a snapshot of the list (the
source captures `next` before removing the current handle): entries with
`refs == 1` are removed from the table and the list and unref'd. -/
def pruneLoop : List Nat → Shard → Shard
  | [], s => s
  | id :: rest, s =>
    match getE s.entries id with
    | some e =>
      if e.refs = 1 then pruneLoop rest (unref (lruRemove s id) id)
      else pruneLoop rest s
    | none => pruneLoop rest s

/-- `LRUCache::Prune` (util/cache.cc). -/
def prune (s : Shard) : Shard := pruneLoop s.lru s

/-- A client-visible shard operation. -/
inductive Op where
  | insert (key charge : Nat)
  | lookup (key : Nat)
  | release (id : Nat)
  | erase (key : Nat)
  | prune
deriving DecidableEq, Repr

def step (s : Shard) : Op → Shard
  | .insert k c => (insert s k c).2
  | .lookup k => (lookup s k).2
  | .release id => release s id
  | .erase k => erase s k
  | .prune => prune s

/-- A shard reached from the empty cache by a sequence of operations. -/
def run (ops : List Op) (s : Shard) : Shard := ops.foldl step s

/-- `LRUCache::LRUCache` + `SetCapacity`: empty list, zero usage. -/
def initShard (cap : Nat) : Shard :=
  { capacity := cap, usage := 0, entries := [], lru := [], nextId := 0 }

/-- The shard invariant: allocation ids are unique and below `nextId`;
every id on the `lru` list is allocated, appears once, and has `refs ≥ 1`;
`usage` equals the total charge of the allocated entries. -/
structure Inv (s : Shard) : Prop where
  nodupIds : (s.entries.map (fun p => p.1)).Nodup
  idsLt : ∀ p ∈ s.entries, p.1 < s.nextId
  lruSub : ∀ id ∈ s.lru, ∃ e, getE s.entries id = some e
  lruNodup : s.lru.Nodup
  refsPos : ∀ id ∈ s.lru, ∀ e, getE s.entries id = some e → 1 ≤ e.refs
  usageEq : s.usage = sumCharges s.entries

/-- The entries currently on a shard's LRU list, with their ids. -/
def lruEntries (s : Shard) : List (Nat × CEntry) :=
  s.lru.filterMap (fun id => (getE s.entries id).map (fun e => (id, e)))

end LRU

/-!  The log reader (db/log_reader.cc, db/log_format.h): claims C7-C10. -/

namespace LogReader

/-- `kBlockSize` (db/log_format.h). -/
def kBlockSize : Nat := 32768

/-- `kHeaderSize` (db/log_format.h): checksum (4) + length (2) + type (1). -/
def kHeaderSize : Nat := 7

/-- `kZeroType` (db/log_format.h): preallocated and never used. -/
def kZeroType : Nat := 0

/-- `kFullType` (db/log_format.h). -/
def kFullType : Nat := 1

/-- `kFirstType` (db/log_format.h). -/
def kFirstType : Nat := 2

/-- `kMiddleType` (db/log_format.h). -/
def kMiddleType : Nat := 3

/-- `kLastType` (db/log_format.h). -/
def kLastType : Nat := 4

/-- Modelled from the spec: one bit-step of CRC32C (Castagnoli), reflected
polynomial `0x82F63B78`; util/crc32c.cc is not among the sources. -/
def crcBit (c : Nat) : Nat :=
  if c % 2 = 1 then (c / 2) ^^^ 0x82F63B78 else c / 2

/-- Modelled from the spec: folding one byte into a CRC32C state. -/
def crcByte (c b : Nat) : Nat :=
  crcBit (crcBit (crcBit (crcBit (crcBit (crcBit (crcBit (crcBit (c ^^^ (b % 256)))))))))

/-- Modelled from the spec: `crc32c::Value` over a byte string. -/
def crc32c (bytes : List Nat) : Nat :=
  (bytes.foldl crcByte 0xFFFFFFFF) ^^^ 0xFFFFFFFF

/-- Modelled from the spec: the stored CRC is masked,
`((crc >> 15) | (crc << 17)) + 0xa282ead8` over `uint32_t` (§6);
util/crc32c.h is not among the sources. -/
def mask (c : Nat) : Nat :=
  (((c >>> 15) ||| ((c <<< 17) % 2^32)) + 0xa282ead8) % 2^32

/-- Modelled from the spec: `crc32c::Unmask`, the inverse of `mask`. -/
def unmask (m : Nat) : Nat :=
  let rot := (m + 2^32 - 0xa282ead8) % 2^32
  ((rot >>> 17) ||| ((rot <<< 15) % 2^32)) % 2^32

/-- `uint64_t` subtraction with wraparound. -/
def sub64 (a b : Nat) : Nat := (a % 2^64 + 2^64 - b % 2^64) % 2^64

/-- The state of `log::Reader` (db/log_reader.h).  `file` holds the contents
of the underlying sequential file and `pos` the bytes consumed from it
(`Read` and `Skip` both advance it; reads never fail in the model — reading
past the end just returns fewer bytes).  `reports` records every
`reporter_->Corruption(bytes, reason)` callback in order (the reporter is
modelled as always present). -/
structure Reader where
  file : List Nat
  pos : Nat
  buffer : List Nat
  eofFlag : Bool
  lastRecordOffset : Nat
  endOfBufferOffset : Nat
  initialOffset : Nat
  checksum : Bool
  resyncing : Bool
  reports : List (Nat × String)
deriving DecidableEq, Repr

/-- `Reader::Reader` (db/log_reader.cc): a fresh reader over a file;
`resyncing_ = initial_offset > 0`. -/
def mkReader (file : List Nat) (checksum : Bool) (initialOffset : Nat) : Reader :=
  { file := file, pos := 0, buffer := [], eofFlag := false, lastRecordOffset := 0,
    endOfBufferOffset := 0, initialOffset := initialOffset, checksum := checksum,
    resyncing := decide (initialOffset > 0), reports := [] }

/-- `Reader::ReportDrop` (db/log_reader.cc): invoke the reporter iff
`end_of_buffer_offset_ - buffer_.size() - bytes >= initial_offset_`
(`uint64_t` arithmetic). -/
def reportDrop (r : Reader) (bytes : Nat) (reason : String) : Reader :=
  if r.initialOffset ≤ sub64 (sub64 r.endOfBufferOffset r.buffer.length) bytes then
    { r with reports := r.reports ++ [(bytes, reason)] }
  else r

/-- `Reader::SkipToInitialBlock` (db/log_reader.cc): compute the start of the
block containing `initial_offset_`, advancing to the next block when the
in-block offset is above `kBlockSize - 6`; set `end_of_buffer_offset_` to that
block start and `Skip` the file there (the model's `Skip` cannot fail). -/
def skipToInitialBlock (r : Reader) : Reader :=
  let offsetInBlock := r.initialOffset % kBlockSize
  let blockStart :=
    if offsetInBlock > kBlockSize - 6 then
      r.initialOffset - offsetInBlock + kBlockSize
    else
      r.initialOffset - offsetInBlock
  let r1 : Reader := { r with endOfBufferOffset := blockStart }
  if blockStart > 0 then { r1 with pos := r1.pos + blockStart } else r1

/-- The length field of the record header at the front of `buffer`:
`a | (b << 8)` over header bytes 4 and 5 (db/log_reader.cc). -/
def declaredLen (buffer : List Nat) : Nat :=
  (buffer.getD 4 0 % 256) ||| ((buffer.getD 5 0 % 256) <<< 8)

/-- Result of `Reader::ReadPhysicalRecord`: a fragment with its type byte, or
the extended codes `kEof` / `kBadRecord` (db/log_reader.h). -/
inductive PhysResult where
  | frag (type : Nat) (data : List Nat)
  | eof
  | bad
deriving DecidableEq, Repr

/-- The header-parsing part of `Reader::ReadPhysicalRecord`
(db/log_reader.cc:276-337), reached with `buffer_.size() >= kHeaderSize`.
The type is the raw byte `header[6]` (the C source reads it through `char`,
which only changes the text of the unknown-type message downstream). -/
def parsePhysical (r : Reader) : PhysResult × Reader :=
  let header := r.buffer
  let length := declaredLen header
  let t := header.getD 6 0
  if kHeaderSize + length > r.buffer.length then
    let dropSize := r.buffer.length
    let r1 : Reader := { r with buffer := [] }
    if r.eofFlag = false then
      (.bad, reportDrop r1 dropSize "bad record length")
    else
      (.eof, r1)
  else if t = kZeroType ∧ length = 0 then
    (.bad, { r with buffer := [] })
  else if r.checksum = true ∧
      crc32c ((header.drop 6).take (1 + length)) ≠ unmask (Coding.decodeFixed32 header) then
    let dropSize := r.buffer.length
    let r1 : Reader := { r with buffer := [] }
    (.bad, reportDrop r1 dropSize "checksum mismatch")
  else
    let r1 : Reader := { r with buffer := r.buffer.drop (kHeaderSize + length) }
    if sub64 (sub64 (sub64 r1.endOfBufferOffset r1.buffer.length) kHeaderSize) length
        < r.initialOffset then
      (.bad, r1)
    else
      (.frag t ((header.drop kHeaderSize).take length), r1)

/-- `Reader::ReadPhysicalRecord` (db/log_reader.cc).  With fewer than
`kHeaderSize` bytes buffered: if not at EOF, drop the leftover trailer and
read the next block (a short read sets `eof_`; the loop then parses, or — if
still short of a full header — returns `kEof`: a truncated tail is not an
error); at EOF, clear the buffer and return `kEof`.  Otherwise parse the
header at the front of the buffer. -/
def readPhysical (r : Reader) : PhysResult × Reader :=
  if r.buffer.length < kHeaderSize then
    if r.eofFlag = false then
      let chunk := (r.file.drop r.pos).take kBlockSize
      let r1 : Reader := { r with
        buffer := chunk
        pos := r.pos + chunk.length
        endOfBufferOffset := r.endOfBufferOffset + chunk.length
        eofFlag := decide (chunk.length < kBlockSize) }
      if r1.buffer.length < kHeaderSize then
        (PhysResult.eof, { r1 with buffer := [] })
      else
        parsePhysical r1
    else
      (PhysResult.eof, { r with buffer := [] })
  else
    parsePhysical r

/-- One iteration of `Reader::ReadRecord`'s loop either returns
(`record`, final state) or continues with updated loop variables. -/
inductive StepOut where
  | done (result : Option (List Nat)) (r : Reader)
  | cont (r : Reader) (inFrag : Bool) (scratch : List Nat) (prosp : Nat)
deriving DecidableEq, Repr

/-- The reader carried by a `StepOut`. -/
def stepReader : StepOut → Reader
  | .done _ r => r
  | .cont r _ _ _ => r

/-- The `switch (record_type)` body of `Reader::ReadRecord`
(db/log_reader.cc:121-219).  The unknown-type message in the C source embeds
the numeric type; the model uses a fixed string. -/
def handleSwitch (r : Reader) (res : PhysResult) (physOffset : Nat)
    (inFrag : Bool) (scratch : List Nat) (prosp : Nat) : StepOut :=
  match res with
  | .frag t frag =>
    if t = kFullType then
      let r1 := if inFrag = true ∧ scratch ≠ [] then
          reportDrop r scratch.length "partial record without end(1)" else r
      .done (some frag) { r1 with lastRecordOffset := physOffset }
    else if t = kFirstType then
      let r1 := if inFrag = true ∧ scratch ≠ [] then
          reportDrop r scratch.length "partial record without end(2)" else r
      .cont r1 true frag physOffset
    else if t = kMiddleType then
      if inFrag = true then .cont r inFrag (scratch ++ frag) prosp
      else .cont (reportDrop r frag.length "missing start of fragmented record(1)")
        inFrag scratch prosp
    else if t = kLastType then
      if inFrag = true then .done (some (scratch ++ frag)) { r with lastRecordOffset := prosp }
      else .cont (reportDrop r frag.length "missing start of fragmented record(2)")
        inFrag scratch prosp
    else
      .cont (reportDrop r (frag.length + if inFrag = true then scratch.length else 0)
          "unknown record type") false [] prosp
  | .eof => .done none r
  | .bad =>
    if inFrag = true then
      .cont (reportDrop r scratch.length "error in middle of record") false [] prosp
    else
      .cont r inFrag scratch prosp

/-- One iteration of `Reader::ReadRecord`'s `while (true)` loop
(db/log_reader.cc:93-220): note the record offset (computed before the
physical read), read a physical record, apply the `resyncing_` filter, then
dispatch on the type. -/
def readRecordStep (r0 : Reader) (inFrag : Bool) (scratch : List Nat) (prosp : Nat) :
    StepOut :=
  let physOffset := sub64 r0.endOfBufferOffset r0.buffer.length
  match readPhysical r0 with
  | (res, r) =>
    if r.resyncing = true then
      match res with
      | .frag t frag =>
        if t = kMiddleType then .cont r inFrag scratch prosp
        else if t = kLastType then
          .cont { r with resyncing := false } inFrag scratch prosp
        else
          handleSwitch { r with resyncing := false } (.frag t frag) physOffset
            inFrag scratch prosp
      | other =>
        handleSwitch { r with resyncing := false } other physOffset inFrag scratch prosp
    else
      handleSwitch r res physOffset inFrag scratch prosp

/-- Fuelled form of `Reader::ReadRecord`'s loop. -/
def readRecordAux : Nat → Reader → Bool → List Nat → Nat → Option (List Nat) × Reader
  | 0, r, _, _, _ => (none, r)
  | fuel + 1, r, inFrag, scratch, prosp =>
    match readRecordStep r inFrag scratch prosp with
    | .done res r1 => (res, r1)
    | .cont r1 f s p => readRecordAux fuel r1 f s p

/-- Fuel for `readRecordAux`: every iteration either consumes buffered bytes
or advances `pos`, so twice the unread file plus the buffer (plus slack for
the final EOF iterations) always suffices. -/
def recordFuel (r : Reader) : Nat := 2 * (r.file.length - r.pos) + r.buffer.length + 3

/-- `Reader::ReadRecord` (db/log_reader.cc:67-222): on the first call with
`initial_offset_` ahead of the last returned record, skip to the initial
block; then run the loop with `in_fragmented_record = false`, empty scratch,
and `prospective_record_offset = 0`. -/
def readRecord (r0 : Reader) : Option (List Nat) × Reader :=
  if r0.lastRecordOffset < r0.initialOffset then
    readRecordAux (recordFuel (skipToInitialBlock r0)) (skipToInitialBlock r0) false [] 0
  else
    readRecordAux (recordFuel r0) r0 false [] 0

/-- A log file of exactly one full 32 KiB block whose first header declares a
65535-byte payload that overruns the file. -/
def c7file : List Nat := [0, 0, 0, 0, 255, 255, 1] ++ List.replicate 32761 0

/-- The reader state after the first physical read of `c7file`: the overrun
length was reported and the buffer dropped. -/
def c7mid : Reader :=
  { file := c7file, pos := 32768, buffer := [], eofFlag := false, lastRecordOffset := 0,
    endOfBufferOffset := 32768, initialOffset := 0, checksum := true, resyncing := false,
    reports := [(32768, "bad record length")] }

/-- Witness states for the log-reader claims. -/
def c8reader1 : Reader :=
  { file := [], pos := 10, buffer := [0, 0, 0, 0, 255, 255, 1], eofFlag := false,
    lastRecordOffset := 0, endOfBufferOffset := 10, initialOffset := 0, checksum := true,
    resyncing := false, reports := [] }

def c8reader2 : Reader :=
  { file := [], pos := 8, buffer := [0, 0, 0, 0, 1, 0, 1, 88], eofFlag := false,
    lastRecordOffset := 0, endOfBufferOffset := 8, initialOffset := 0, checksum := true,
    resyncing := false, reports := [] }

def c8reader3 : Reader :=
  { file := [], pos := 8, buffer := [0, 0, 0, 0, 1, 0, 9, 77], eofFlag := false,
    lastRecordOffset := 0, endOfBufferOffset := 8, initialOffset := 0, checksum := false,
    resyncing := false, reports := [] }

def c8reader4 : Reader := { c8reader1 with initialOffset := 100 }

def c9reader : Reader :=
  { file := [], pos := 8, buffer := [0, 0, 0, 0, 1, 0, 3, 99], eofFlag := false,
    lastRecordOffset := 0, endOfBufferOffset := 8, initialOffset := 0, checksum := false,
    resyncing := true, reports := [] }

def c9readerAfter : Reader := { c9reader with buffer := ([] : List Nat) }

def c10reader : Reader :=
  { file := [], pos := 8, buffer := [0, 0, 0, 0, 1, 0, 1, 88], eofFlag := false,
    lastRecordOffset := 0, endOfBufferOffset := 8, initialOffset := 0, checksum := false,
    resyncing := false, reports := [] }

def c10readerAfter : Reader := { c10reader with buffer := ([] : List Nat) }

end LogReader


/-!  Theorems: supporting lemmas, then the claim theorems with their
witnesses and counterexamples. -/


namespace Coding

theorem encodeFixed32_length (v : Nat) : (encodeFixed32 v).length = 4 := rfl

theorem encodeFixed64_length (v : Nat) : (encodeFixed64 v).length = 8 := rfl

theorem decode_encodeFixed32 (v : Nat) (h : v < 2^32) :
    decodeFixed32 (encodeFixed32 v) = v := by
  simp [encodeFixed32, decodeFixed32]
  omega

theorem decode_encodeFixed64 (v : Nat) (h : v < 2^64) :
    decodeFixed64 (encodeFixed64 v) = v := by
  simp [encodeFixed64, decodeFixed64]
  omega

/-- Heads of a concatenation: the first four bytes of `encodeFixed32 v ++ rest`
decode to `v`. -/
theorem decodeFixed32_append (v : Nat) (rest : List Nat) (h : v < 2^32) :
    decodeFixed32 (encodeFixed32 v ++ rest) = v := by
  simp [encodeFixed32, decodeFixed32]
  omega

theorem decodeFixed64_append (v : Nat) (rest : List Nat) (h : v < 2^64) :
    decodeFixed64 (encodeFixed64 v ++ rest) = v := by
  simp [encodeFixed64, decodeFixed64]
  omega

theorem getVarint32Loop_length_le :
    ∀ (shift acc : Nat) (input : List Nat) (v : Nat) (rest : List Nat),
      getVarint32Loop shift acc input = some (v, rest) → rest.length ≤ input.length := by
  intro shift acc input
  induction input generalizing shift acc with
  | nil => intro v rest h; simp [getVarint32Loop] at h
  | cons b bs ih =>
    intro v rest h
    simp only [getVarint32Loop] at h
    split at h
    · split at h
      · have := ih _ _ _ _ h
        simp only [List.length_cons]; omega
      · simp only [Option.some.injEq, Prod.mk.injEq] at h
        simp only [List.length_cons, ← h.2]; omega
    · exact absurd h (by simp)

theorem getVarint32_length_le (input : List Nat) (v : Nat) (rest : List Nat)
    (h : getVarint32 input = some (v, rest)) : rest.length ≤ input.length :=
  getVarint32Loop_length_le 0 0 input v rest h

/-- Low bits of an or distribute through `% 2^n`. -/
theorem or_mod_two_pow (a b n : Nat) : (a ||| b) % 2^n = (a % 2^n) ||| (b % 2^n) := by
  apply Nat.eq_of_testBit_eq
  intro i
  simp only [Nat.testBit_mod_two_pow, Nat.testBit_lor]
  by_cases h : i < n <;> simp [h]

theorem or128_of_lt (a : Nat) (h : a < 128) : 128 ||| a = 128 + a := by
  have h7 : a < 2^7 := by omega
  have h2 := Nat.mul_add_lt_is_or h7 1
  norm_num at h2
  exact h2.symm

theorem or_byte (x : Nat) : (x ||| 128) % 256 = x % 128 + 128 := by
  have h1 : (x ||| 128) % 256 = (x % 256) ||| 128 := by
    have h256 : (256 : Nat) = 2^8 := by norm_num
    rw [h256, or_mod_two_pow]
    norm_num
  rw [h1]
  have hy : x % 256 < 256 := Nat.mod_lt _ (by norm_num)
  have hxm : x % 128 = (x % 256) % 128 := (Nat.mod_mod_of_dvd x (by norm_num)).symm
  by_cases hc : x % 256 < 128
  · rw [Nat.lor_comm, or128_of_lt _ hc]
    omega
  · have hr : x % 256 = 128 ||| (x % 256 - 128) := by
      rw [or128_of_lt _ (by omega)]; omega
    rw [hr, Nat.lor_comm 128, Nat.lor_assoc, Nat.or_self, Nat.lor_comm, or128_of_lt _ (by omega)]
    omega

theorem and_127 (x : Nat) : x &&& 127 = x % 128 := by
  have h : (127 : Nat) = 2^7 - 1 := by norm_num
  rw [h, Nat.and_pow_two_sub_one_eq_mod]

theorem or_add_disjoint (a b k : Nat) (h : a < 2^k) : a ||| (b <<< k) = b * 2^k + a := by
  rw [Nat.shiftLeft_eq, Nat.lor_comm, mul_comm, ← Nat.mul_add_lt_is_or h b]

theorem loop_step_cont (shift acc x : Nat) (hx : x < 128) (hsh : shift ≤ 21)
    (hacc : acc < 2^shift) (rest : List Nat) :
    getVarint32Loop shift acc ((x + 128) :: rest)
      = getVarint32Loop (shift + 7) (x * 2^shift + acc) rest := by
  have hm : (x + 128) % 256 = x + 128 := Nat.mod_eq_of_lt (by omega)
  simp only [getVarint32Loop, hm, if_pos (by omega : shift ≤ 28),
    if_pos (by omega : x + 128 ≥ 128)]
  have h1 : (x + 128) &&& 127 = x := by
    rw [and_127]; omega
  rw [h1, or_add_disjoint _ _ _ hacc]
  congr 1
  have hs : (2:Nat)^shift ≤ 2^21 := Nat.pow_le_pow_right (by omega) hsh
  have hb : x * 2^shift + acc < 2^32 := by
    have : x * 2^shift ≤ 127 * 2^21 := by
      calc x * 2^shift ≤ 127 * 2^shift := Nat.mul_le_mul_right _ (by omega)
      _ ≤ 127 * 2^21 := Nat.mul_le_mul_left _ hs
    have : acc < 2^21 := lt_of_lt_of_le hacc hs
    omega
  exact Nat.mod_eq_of_lt hb

theorem loop_step_done (shift acc x : Nat) (hx : x < 128) (hsh : shift ≤ 28)
    (hacc : acc < 2^shift) (hsum : x * 2^shift + acc < 2^32) (rest : List Nat) :
    getVarint32Loop shift acc (x :: rest) = some (x * 2^shift + acc, rest) := by
  have hm : x % 256 = x := Nat.mod_eq_of_lt (by omega)
  simp only [getVarint32Loop, hm, if_pos hsh]
  rw [if_neg (by omega : ¬ x ≥ 128), or_add_disjoint _ _ _ hacc, Nat.mod_eq_of_lt hsum]

theorem getVarint32_encode (v : Nat) (hv : v < 2^32) (rest : List Nat) :
    getVarint32 (encodeVarint32 v ++ rest) = some (v, rest) := by
  unfold getVarint32 encodeVarint32
  have hsr : ∀ k : Nat, v >>> k = v / 2^k := fun k => Nat.shiftRight_eq_div_pow v k
  have hc1 : v / 2^14 = v / 2^7 / 128 := by
    rw [Nat.div_div_eq_div_mul]; norm_num
  have hc2 : v / 2^21 = v / 2^14 / 128 := by
    rw [Nat.div_div_eq_div_mul]; norm_num
  have hc3 : v / 2^28 = v / 2^21 / 128 := by
    rw [Nat.div_div_eq_div_mul]; norm_num
  split
  case isTrue h1 =>
    have hm : v % 256 = v := Nat.mod_eq_of_lt (by omega)
    simp only [List.cons_append, List.nil_append, hm]
    rw [loop_step_done 0 0 v (by omega) (by omega) (by omega) (by omega)]
    norm_num
  case isFalse h1 =>
    split
    case isTrue h2 =>
      simp only [List.cons_append, List.nil_append, or_byte, hsr]
      rw [loop_step_cont 0 0 (v % 128) (by omega) (by omega) (by omega)]
      have hb1 : v / 2^7 % 256 = v / 2^7 := Nat.mod_eq_of_lt (by omega)
      rw [hb1, loop_step_done 7 _ _ (by omega) (by omega) (by omega) (by omega)]
      simp only [Option.some.injEq, Prod.mk.injEq, and_true]
      omega
    case isFalse h2 =>
      split
      case isTrue h3 =>
        simp only [List.cons_append, List.nil_append, or_byte, hsr]
        rw [loop_step_cont 0 0 (v % 128) (by omega) (by omega) (by omega),
            loop_step_cont 7 _ (v / 2^7 % 128) (by omega) (by omega) (by omega)]
        have hb2 : v / 2^14 % 256 = v / 2^14 := Nat.mod_eq_of_lt (by omega)
        rw [hb2, loop_step_done 14 _ _ (by omega) (by omega) (by omega) (by omega)]
        simp only [Option.some.injEq, Prod.mk.injEq, and_true]
        omega
      case isFalse h3 =>
        split
        case isTrue h4 =>
          simp only [List.cons_append, List.nil_append, or_byte, hsr]
          rw [loop_step_cont 0 0 (v % 128) (by omega) (by omega) (by omega),
              loop_step_cont 7 _ (v / 2^7 % 128) (by omega) (by omega) (by omega),
              loop_step_cont 14 _ (v / 2^14 % 128) (by omega) (by omega) (by omega)]
          have hb3 : v / 2^21 % 256 = v / 2^21 := Nat.mod_eq_of_lt (by omega)
          rw [hb3, loop_step_done 21 _ _ (by omega) (by omega) (by omega) (by omega)]
          simp only [Option.some.injEq, Prod.mk.injEq, and_true]
          omega
        case isFalse h4 =>
          simp only [List.cons_append, List.nil_append, or_byte, hsr]
          rw [loop_step_cont 0 0 (v % 128) (by omega) (by omega) (by omega),
              loop_step_cont 7 _ (v / 2^7 % 128) (by omega) (by omega) (by omega),
              loop_step_cont 14 _ (v / 2^14 % 128) (by omega) (by omega) (by omega),
              loop_step_cont 21 _ (v / 2^21 % 128) (by omega) (by omega) (by omega)]
          have hb4 : v / 2^28 % 256 = v / 2^28 := Nat.mod_eq_of_lt (by omega)
          rw [hb4, loop_step_done 28 _ _ (by omega) (by omega) (by omega) (by omega)]
          simp only [Option.some.injEq, Prod.mk.injEq, and_true]
          omega

theorem getLengthPrefixedSlice_length_le (input : List Nat) (v rest : List Nat)
    (h : getLengthPrefixedSlice input = some (v, rest)) : rest.length ≤ input.length := by
  cases hv : getVarint32 input with
  | none => simp [getLengthPrefixedSlice, hv] at h
  | some p =>
    obtain ⟨len, r⟩ := p
    simp only [getLengthPrefixedSlice, hv] at h
    split at h
    · simp only [Option.some.injEq, Prod.mk.injEq] at h
      have h1 := getVarint32_length_le input len r hv
      have h2 : (r.drop len).length ≤ r.length := by
        rw [List.length_drop]; omega
      rw [h.2] at h2
      omega
    · simp at h

theorem getLengthPrefixedSlice_put (value rest : List Nat) (h : value.length < 2^32) :
    getLengthPrefixedSlice (putLengthPrefixedSlice value ++ rest) = some (value, rest) := by
  unfold getLengthPrefixedSlice putLengthPrefixedSlice
  rw [List.append_assoc, Nat.mod_eq_of_lt h,
      getVarint32_encode value.length h (value ++ rest)]
  simp [List.take_left, List.drop_left]

end Coding

namespace WB

theorem iterateLoop_encode (records : List HOp) :
    ∀ (acc : List HOp) (found fuel : Nat), (∀ r ∈ records, recOk r) →
      ((records.map encodeRecord).flatten).length ≤ fuel →
      iterateLoop fuel ((records.map encodeRecord).flatten) acc found
        = (acc ++ records, found + records.length, none) := by
  induction records with
  | nil => intro acc found fuel _ _; cases fuel <;> simp [iterateLoop]
  | cons r rest ih =>
    intro acc found fuel hok hfuel
    simp only [List.map_cons, List.flatten_cons] at hfuel ⊢
    cases r with
    | put k v =>
      have hkv : k.length < 2^32 ∧ v.length < 2^32 := hok (HOp.put k v) (by simp)
      obtain ⟨hk, hv⟩ := hkv
      simp only [encodeRecord, List.cons_append, List.length_cons,
        List.length_append] at hfuel ⊢
      cases fuel with
      | zero => omega
      | succ f =>
        simp only [iterateLoop, List.append_assoc]
        rw [if_pos trivial, Coding.getLengthPrefixedSlice_put k _ hk]
        dsimp only
        rw [Coding.getLengthPrefixedSlice_put v _ hv]
        dsimp only
        rw [ih (acc ++ [HOp.put k v]) (found + 1) f (fun r hr => hok r (by simp [hr]))
            (by omega)]
        simp only [List.append_assoc, List.singleton_append, List.length_cons,
          Prod.mk.injEq]
        refine ⟨trivial, by omega, trivial⟩
    | del k =>
      have hk : k.length < 2^32 := hok (HOp.del k) (by simp)
      simp only [encodeRecord, List.cons_append, List.length_cons,
        List.length_append] at hfuel ⊢
      cases fuel with
      | zero => omega
      | succ f =>
        simp only [iterateLoop, List.append_assoc]
        rw [if_neg (by simp [kTypeValue, kTypeDeletion]), if_pos trivial,
            Coding.getLengthPrefixedSlice_put k _ hk]
        dsimp only
        rw [ih (acc ++ [HOp.del k]) (found + 1) f (fun r hr => hok r (by simp [hr]))
            (by omega)]
        simp only [List.append_assoc, List.singleton_append, List.length_cons,
          Prod.mk.injEq]
        refine ⟨trivial, by omega, trivial⟩

theorem iterateLoop_parseAll_some :
    ∀ (fuel : Nat) (input : List Nat) (acc : List HOp) (found : Nat) (ops : List HOp),
      parseAll fuel input = some ops →
      iterateLoop fuel input acc found = (acc ++ ops, found + ops.length, none) := by
  intro fuel
  induction fuel with
  | zero =>
    intro input acc found ops h
    cases input with
    | nil =>
      simp only [parseAll, Option.some.injEq] at h
      subst h
      simp [iterateLoop]
    | cons t r => simp [parseAll] at h
  | succ f ih =>
    intro input acc found ops h
    cases input with
    | nil =>
      simp only [parseAll, Option.some.injEq] at h
      subst h
      simp [iterateLoop]
    | cons tag rest =>
      simp only [parseAll] at h
      simp only [iterateLoop]
      by_cases htag : tag = kTypeValue
      · rw [if_pos htag] at h ⊢
        cases h1 : Coding.getLengthPrefixedSlice rest with
        | none => rw [h1] at h; simp at h
        | some p1 =>
          obtain ⟨key, r1⟩ := p1
          simp only [h1] at h ⊢
          cases h2 : Coding.getLengthPrefixedSlice r1 with
          | none => rw [h2] at h; simp at h
          | some p2 =>
            obtain ⟨value, r2⟩ := p2
            simp only [h2] at h ⊢
            cases hp : parseAll f r2 with
            | none => rw [hp] at h; simp at h
            | some ops' =>
              rw [hp] at h
              simp only [Option.map_some', Option.some.injEq] at h
              subst h
              rw [ih r2 (acc ++ [HOp.put key value]) (found + 1) ops' hp]
              simp only [List.append_assoc, List.singleton_append, List.length_cons,
                Prod.mk.injEq]
              refine ⟨trivial, by omega, trivial⟩
      · rw [if_neg htag] at h ⊢
        by_cases htag2 : tag = kTypeDeletion
        · rw [if_pos htag2] at h ⊢
          cases h1 : Coding.getLengthPrefixedSlice rest with
          | none => rw [h1] at h; simp at h
          | some p1 =>
            obtain ⟨key, r1⟩ := p1
            simp only [h1] at h ⊢
            cases hp : parseAll f r1 with
            | none => rw [hp] at h; simp at h
            | some ops' =>
              rw [hp] at h
              simp only [Option.map_some', Option.some.injEq] at h
              subst h
              rw [ih r1 (acc ++ [HOp.del key]) (found + 1) ops' hp]
              simp only [List.append_assoc, List.singleton_append, List.length_cons,
                Prod.mk.injEq]
              refine ⟨trivial, by omega, trivial⟩
        · rw [if_neg htag2] at h ⊢
          simp at h

theorem iterateLoop_parseAll_none :
    ∀ (fuel : Nat) (input : List Nat) (acc : List HOp) (found : Nat),
      parseAll fuel input = none →
      ∃ msg, (iterateLoop fuel input acc found).2.2 = some msg := by
  intro fuel
  induction fuel with
  | zero =>
    intro input acc found h
    cases input with
    | nil => simp [parseAll] at h
    | cons t r => exact ⟨"out of fuel", rfl⟩
  | succ f ih =>
    intro input acc found h
    cases input with
    | nil => simp [parseAll] at h
    | cons tag rest =>
      simp only [parseAll] at h
      simp only [iterateLoop]
      by_cases htag : tag = kTypeValue
      · rw [if_pos htag] at h ⊢
        cases h1 : Coding.getLengthPrefixedSlice rest with
        | none =>
          exact ⟨"bad WriteBatch Put", rfl⟩
        | some p1 =>
          obtain ⟨key, r1⟩ := p1
          simp only [h1] at h ⊢
          cases h2 : Coding.getLengthPrefixedSlice r1 with
          | none =>
            exact ⟨"bad WriteBatch Put", rfl⟩
          | some p2 =>
            obtain ⟨value, r2⟩ := p2
            simp only [h2] at h ⊢
            cases hp : parseAll f r2 with
            | none => exact ih r2 (acc ++ [HOp.put key value]) (found + 1) hp
            | some ops' => rw [hp] at h; simp at h
      · rw [if_neg htag] at h ⊢
        by_cases htag2 : tag = kTypeDeletion
        · rw [if_pos htag2] at h ⊢
          cases h1 : Coding.getLengthPrefixedSlice rest with
          | none =>
            exact ⟨"bad WriteBatch Delete", rfl⟩
          | some p1 =>
            obtain ⟨key, r1⟩ := p1
            simp only [h1] at h ⊢
            cases hp : parseAll f r1 with
            | none => exact ih r1 (acc ++ [HOp.del key]) (found + 1) hp
            | some ops' => rw [hp] at h; simp at h
        · rw [if_neg htag2]
          exact ⟨"unknown WriteBatch tag", rfl⟩

theorem applyInserter_seq (ops : List HOp) :
    ∀ s : Nat, s + ops.length ≤ 2^64 →
      (applyInserter ops s).map (fun m => m.seq)
        = (List.range ops.length).map (fun i => s + i) := by
  induction ops with
  | nil => intro s _; simp [applyInserter]
  | cons r rest ih =>
    intro s hs
    simp only [List.length_cons] at hs
    have hmod : s % 2^64 = s := Nat.mod_eq_of_lt (by omega)
    have hmap : ∀ i : Nat, s + Nat.succ i = (s + 1) + i := fun i => by omega
    cases r with
    | put k v =>
      simp only [applyInserter, List.map_cons, hmod, List.length_cons,
        List.range_succ_eq_map, List.map_map, Function.comp]
      congr 1
      rw [ih (s + 1) (by omega)]
      exact List.map_congr_left fun i _ => by simp only [Function.comp_apply]; omega
    | del k =>
      simp only [applyInserter, List.map_cons, hmod, List.length_cons,
        List.range_succ_eq_map, List.map_map, Function.comp]
      congr 1
      rw [ih (s + 1) (by omega)]
      exact List.map_congr_left fun i _ => by simp only [Function.comp_apply]; omega

theorem drop8_encodeFixed64 (s : Nat) (rest : List Nat) :
    (Coding.encodeFixed64 s ++ rest).drop 8 = rest := by
  simp [Coding.encodeFixed64]

theorem count_wellFormed (rep : List Nat) (s : Nat) (records : List HOp)
    (h : wellFormed rep s records) : count rep = records.length := by
  obtain ⟨hrep, _, hn, _⟩ := h
  rw [hrep]
  unfold count
  rw [List.append_assoc, drop8_encodeFixed64]
  exact Coding.decodeFixed32_append records.length _ hn

theorem sequence_wellFormed (rep : List Nat) (s : Nat) (records : List HOp)
    (h : wellFormed rep s records) : sequence rep = s := by
  obtain ⟨hrep, hs, _, _⟩ := h
  rw [hrep]
  unfold sequence
  rw [List.append_assoc]
  exact Coding.decodeFixed64_append s _ hs

theorem drop12_wellFormed (rep : List Nat) (s : Nat) (records : List HOp)
    (h : wellFormed rep s records) :
    rep.drop kHeader = (records.map encodeRecord).flatten := by
  obtain ⟨hrep, _, _, _⟩ := h
  rw [hrep]
  simp [Coding.encodeFixed64, Coding.encodeFixed32, kHeader]

theorem length_wellFormed (rep : List Nat) (s : Nat) (records : List HOp)
    (h : wellFormed rep s records) :
    rep.length = 12 + (records.map encodeRecord).flatten.length := by
  obtain ⟨hrep, _, _, _⟩ := h
  rw [hrep]
  simp [Coding.encodeFixed64, Coding.encodeFixed32]
  omega

theorem iterate_wellFormed (rep : List Nat) (s : Nat) (records : List HOp)
    (h : wellFormed rep s records) : iterate rep = (records, .ok) := by
  have hlen := length_wellFormed rep s records h
  have hcount := count_wellFormed rep s records h
  have hdrop := drop12_wellFormed rep s records h
  unfold iterate
  rw [if_neg (by rw [hlen]; unfold kHeader; omega)]
  rw [hdrop, iterateLoop_encode records [] 0 _ h.2.2.2 (le_refl _)]
  simp [hcount]

end WB

/-- C3 counterexample: on the batch built by `put("k1","v1")`, `delete("k2")`,
`put("k3","v3")` the stored count is 3 but the serialized representation is
30 bytes long, not 37 as the claim states
(12 + (1+1+2+1+2) + (1+1+2) + (1+1+2+1+2) = 30). -/
theorem writeBatch_s3_size_counterexample :
    WB.count (WB.put (WB.delete (WB.put WB.clear [107, 49] [118, 49]) [107, 50])
        [107, 51] [118, 51]) = 3 ∧
    (WB.put (WB.delete (WB.put WB.clear [107, 49] [118, 49]) [107, 50])
        [107, 51] [118, 51]).length = 30 ∧
    ¬ (WB.put (WB.delete (WB.put WB.clear [107, 49] [118, 49]) [107, 50])
        [107, 51] [118, 51]).length = 37 := by
  decide

/-- C3 (amended): for the batch built by `put("k1","v1")`, `delete("k2")`,
`put("k3","v3")` on a fresh WriteBatch, the stored count equals 3 and the
serialized representation is exactly 30 bytes long. -/
theorem writeBatch_s3_count_and_size :
    WB.count (WB.put (WB.delete (WB.put WB.clear [107, 49] [118, 49]) [107, 50])
        [107, 51] [118, 51]) = 3 ∧
    (WB.put (WB.delete (WB.put WB.clear [107, 49] [118, 49]) [107, 50])
        [107, 51] [118, 51]).length = 30 := by
  decide

/-- C4: for every well-formed batch with sequence `s` and records `rs`,
`Iterate` invokes the handler exactly once per record, in record order, and
returns OK, and `InsertInto` applies the `i`-th callback (0-indexed) with
sequence `s + i`; moreover, for an arbitrary representation, `Iterate`
returns OK exactly when the header is at least 12 bytes, the record region
parses cleanly (every tag is value or deletion and every length-prefixed
string is intact), and the number of records equals the stored count —
otherwise it returns Corruption. -/
theorem writeBatch_iterate_correct :
    (∀ (rep : List Nat) (s : Nat) (records : List WB.HOp),
      WB.wellFormed rep s records → s + records.length ≤ 2^64 →
        WB.iterate rep = (records, WB.WStatus.ok) ∧
        (WB.insertInto rep).2 = WB.WStatus.ok ∧
        (WB.insertInto rep).1.map (fun m => m.seq)
          = (List.range records.length).map (fun i => s + i)) ∧
    (∀ rep : List Nat,
      (WB.iterate rep).2 = WB.WStatus.ok ↔
        WB.kHeader ≤ rep.length ∧
        ∃ ops, WB.parseRecords (rep.drop WB.kHeader) = some ops ∧
          ops.length = WB.count rep) := by
  constructor
  · intro rep s records hwf hs
    have hit := WB.iterate_wellFormed rep s records hwf
    have hseq := WB.sequence_wellFormed rep s records hwf
    refine ⟨hit, ?_, ?_⟩
    · unfold WB.insertInto
      rw [hit]
    · unfold WB.insertInto
      rw [hit, hseq]
      exact WB.applyInserter_seq records s hs
  · intro rep
    unfold WB.iterate
    by_cases hlen : rep.length < WB.kHeader
    · rw [if_pos hlen]
      simp only [WB.kHeader] at hlen ⊢
      constructor
      · intro h; exact absurd h (by simp)
      · intro h; omega
    · rw [if_neg hlen]
      cases hp : WB.parseRecords (rep.drop WB.kHeader) with
      | some ops =>
        have hll := WB.iterateLoop_parseAll_some (rep.drop WB.kHeader).length
          (rep.drop WB.kHeader) [] 0 ops hp
        rw [hll]
        simp only [List.nil_append, Nat.zero_add]
        by_cases hc : ops.length = WB.count rep
        · rw [if_neg (by omega)]
          simp only [true_iff, iff_true]
          exact ⟨by omega, ops, rfl, hc⟩
        · rw [if_pos (by omega)]
          constructor
          · intro h; exact absurd h (by simp)
          · rintro ⟨-, ops', hops', hc'⟩
            cases hops'
            exact absurd hc' hc
      | none =>
        obtain ⟨msg, hmsg⟩ := WB.iterateLoop_parseAll_none (rep.drop WB.kHeader).length
          (rep.drop WB.kHeader) [] 0 hp
        constructor
        · intro h
          exfalso
          revert h
          rcases hit : WB.iterateLoop (rep.drop WB.kHeader).length (rep.drop WB.kHeader) [] 0
            with ⟨acc, found, err⟩
          rw [hit] at hmsg
          simp only at hmsg
          rw [hmsg]
          simp
        · rintro ⟨-, ops', hops', -⟩
          cases hops'

/-- Witness for C4: the S3 batch is well-formed with sequence 0 and its
three records, and `Iterate` returns them in order with OK. -/
theorem writeBatch_iterate_correct_witness :
    WB.iterate (WB.put (WB.delete (WB.put WB.clear [107, 49] [118, 49]) [107, 50])
        [107, 51] [118, 51])
      = ([WB.HOp.put [107, 49] [118, 49], WB.HOp.del [107, 50],
          WB.HOp.put [107, 51] [118, 51]], WB.WStatus.ok) :=
  (writeBatch_iterate_correct.1
    (WB.put (WB.delete (WB.put WB.clear [107, 49] [118, 49]) [107, 50])
        [107, 51] [118, 51]) 0
    [WB.HOp.put [107, 49] [118, 49], WB.HOp.del [107, 50],
     WB.HOp.put [107, 51] [118, 51]]
    (by decide) (by decide)).1

namespace Comparator

theorem commonPrefixLen_le (a b : List Nat) :
    commonPrefixLen a b ≤ min a.length b.length := by
  induction a generalizing b with
  | nil => cases b <;> simp [commonPrefixLen]
  | cons x as ih =>
    cases b with
    | nil => simp [commonPrefixLen]
    | cons y bs =>
      simp only [commonPrefixLen]
      split
      · have := ih bs
        simp only [List.length_cons]
        omega
      · omega

theorem commonPrefixLen_take (a b : List Nat) :
    a.take (commonPrefixLen a b) = b.take (commonPrefixLen a b) := by
  induction a generalizing b with
  | nil => cases b <;> simp [commonPrefixLen]
  | cons x as ih =>
    cases b with
    | nil => simp [commonPrefixLen]
    | cons y bs =>
      simp only [commonPrefixLen]
      split
      case isTrue h => subst h; simp [List.take_succ_cons, ih bs]
      case isFalse h => simp

theorem commonPrefixLen_ne (a b : List Nat)
    (h : commonPrefixLen a b < min a.length b.length) :
    a.getD (commonPrefixLen a b) 0 ≠ b.getD (commonPrefixLen a b) 0 := by
  induction a generalizing b with
  | nil => simp at h
  | cons x as ih =>
    cases b with
    | nil => simp at h
    | cons y bs =>
      simp only [commonPrefixLen] at h ⊢
      split
      case isTrue heq =>
        subst heq
        rw [if_pos rfl] at h
        simp only [List.getD_cons_succ]
        exact ih bs (by simp only [List.length_cons] at h ⊢; omega)
      case isFalse hne =>
        simp only [List.getD_cons_zero]
        exact hne

theorem bytesLtb_append_common (p a b : List Nat) :
    bytesLtb (p ++ a) (p ++ b) = bytesLtb a b := by
  induction p with
  | nil => simp
  | cons x ps ih => simp [bytesLtb, ih]

theorem getD_eq_getElem (l : List Nat) (n : Nat) (h : n < l.length) :
    l.getD n 0 = l[n] := by
  simp [List.getD_eq_getElem?_getD, List.getElem?_eq_getElem h]

theorem take_getD_drop (l : List Nat) (n : Nat) (h : n < l.length) :
    l.take n ++ l.getD n 0 :: l.drop (n + 1) = l := by
  rw [getD_eq_getElem l n h, ← List.drop_eq_getElem_cons h, List.take_append_drop]

theorem bytesLt_inc (p rest : List Nat) (sb : Nat) :
    bytesLt (p ++ sb :: rest) (p ++ [sb + 1]) := by
  unfold bytesLt
  rw [bytesLtb_append_common]
  simp [bytesLtb]

theorem bytesLt_inc_lt (p rest : List Nat) (sb lb : Nat) (h : sb + 1 < lb) :
    bytesLt (p ++ [sb + 1]) (p ++ lb :: rest) := by
  unfold bytesLt
  rw [bytesLtb_append_common]
  simp only [bytesLtb]
  rw [if_pos (by omega)]

/-- C6: for every pair of byte strings with `start < limit` under bytewise
order, `FindShortestSeparator` returns `new_start` with
`new_start.len ≤ start.len` and `start ≤ new_start < limit`, and it modifies
`start` exactly when, at the first differing index, `start`'s byte can be
incremented without reaching `limit`'s byte (otherwise `start` is returned
unchanged). -/
theorem findShortestSeparator_spec :
    ∀ (start limit : List Nat), (∀ x ∈ start, x < 256) → (∀ x ∈ limit, x < 256) →
      bytesLt start limit →
      (findShortestSeparator start limit).length ≤ start.length ∧
      bytesLe start (findShortestSeparator start limit) ∧
      bytesLt (findShortestSeparator start limit) limit ∧
      (findShortestSeparator start limit ≠ start ↔
        (commonPrefixLen start limit < min start.length limit.length ∧
         start.getD (commonPrefixLen start limit) 0 + 1
           < limit.getD (commonPrefixLen start limit) 0)) := by
  intro s l hs hl hlt
  unfold findShortestSeparator
  by_cases h1 : min s.length l.length ≤ commonPrefixLen s l
  · rw [if_pos h1]
    refine ⟨le_refl _, Or.inr rfl, hlt, ?_⟩
    constructor
    · intro h; exact absurd rfl h
    · rintro ⟨hc, -⟩; omega
  · rw [if_neg h1]
    have hcs : commonPrefixLen s l < s.length := by omega
    have hcl : commonPrefixLen s l < l.length := by omega
    by_cases h2 : s.getD (commonPrefixLen s l) 0 < 255 ∧
        s.getD (commonPrefixLen s l) 0 + 1 < l.getD (commonPrefixLen s l) 0
    · rw [if_pos h2]
      have hlen : (s.take (commonPrefixLen s l)).length = commonPrefixLen s l :=
        List.length_take_of_le (by omega)
      have hds : s = s.take (commonPrefixLen s l) ++
          s.getD (commonPrefixLen s l) 0 :: s.drop (commonPrefixLen s l + 1) :=
        (take_getD_drop s _ hcs).symm
      have hdl : l = l.take (commonPrefixLen s l) ++
          l.getD (commonPrefixLen s l) 0 :: l.drop (commonPrefixLen s l + 1) :=
        (take_getD_drop l _ hcl).symm
      have htake : s.take (commonPrefixLen s l) = l.take (commonPrefixLen s l) :=
        commonPrefixLen_take s l
      refine ⟨?_, ?_, ?_, ?_⟩
      · simp only [List.length_append, List.length_cons, List.length_nil, hlen]
        omega
      · left
        nth_rewrite 1 [hds]
        exact bytesLt_inc _ _ _
      · nth_rewrite 3 [hdl]
        rw [← htake]
        exact bytesLt_inc_lt _ _ _ _ h2.2
      · constructor
        · intro _; exact ⟨by omega, h2.2⟩
        · intro _
          intro heq
          have hdrop := congrArg (List.drop (commonPrefixLen s l)) heq
          rw [List.drop_left' hlen] at hdrop
          have h6 : List.drop (commonPrefixLen s l) s
              = s.getD (commonPrefixLen s l) 0 :: List.drop (commonPrefixLen s l + 1) s := by
            nth_rewrite 2 [hds]
            rw [List.drop_left' hlen]
          rw [h6] at hdrop
          simp at hdrop
    · rw [if_neg h2]
      refine ⟨le_refl _, Or.inr rfl, hlt, ?_⟩
      constructor
      · intro h; exact absurd rfl h
      · rintro ⟨hc, hinc⟩
        exfalso
        have hlb : l.getD (commonPrefixLen s l) 0 < 256 := by
          rw [getD_eq_getElem l _ hcl]
          exact hl _ (List.getElem_mem hcl)
        exact h2 ⟨by omega, hinc⟩

/-- Witness for C6 at `start = [1,2]`, `limit = [1,4]`: the separator is
`[1,3]`, strictly between them and no longer than `start`. -/
theorem findShortestSeparator_spec_witness :
    (findShortestSeparator [1, 2] [1, 4]).length ≤ ([1, 2] : List Nat).length ∧
    bytesLe [1, 2] (findShortestSeparator [1, 2] [1, 4]) ∧
    bytesLt (findShortestSeparator [1, 2] [1, 4]) [1, 4] ∧
    (findShortestSeparator [1, 2] [1, 4] ≠ [1, 2] ↔
      (commonPrefixLen [1, 2] [1, 4] < min ([1, 2] : List Nat).length
          ([1, 4] : List Nat).length ∧
       ([1, 2] : List Nat).getD (commonPrefixLen [1, 2] [1, 4]) 0 + 1
         < ([1, 4] : List Nat).getD (commonPrefixLen [1, 2] [1, 4]) 0)) :=
  findShortestSeparator_spec [1, 2] [1, 4] (by decide) (by decide) (by decide)

end Comparator

/-- C1 (code bug): `TableBuilder::Add` counts the entry but never appends
`(key, value)` to the data block — the call `r->data_block.Add(key, value)`
sits inside the line comment at table_builder.cc line 188.  Building from
keys `"a" < "b"` yields `num_entries = 2` with the data block still empty
(and nothing ever flushed), so a scan of the finished SST cannot return the
added pairs. -/
theorem tableBuilder_add_never_appends :
    (TableB.add TableB.init [97] [118]).dataBlock = [] ∧
    (TableB.add TableB.init [97] [118]).numEntries = 1 ∧
    (TableB.add (TableB.add TableB.init [97] [118]) [98] [119]).dataBlock = [] ∧
    (TableB.add (TableB.add TableB.init [97] [118]) [98] [119]).numEntries = 2 ∧
    (TableB.add (TableB.add TableB.init [97] [118]) [98] [119]).written = [] := by
  decide

namespace LRU

theorem getE_mem (l : List (Nat × CEntry)) (id : Nat) (e : CEntry)
    (h : getE l id = some e) : (id, e) ∈ l := by
  induction l with
  | nil => simp [getE] at h
  | cons p rest ih =>
    obtain ⟨i, e'⟩ := p
    simp only [getE] at h
    split at h
    · simp only [Option.some.injEq] at h
      subst h
      rename_i hi
      subst hi
      exact List.mem_cons_self _ _
    · exact List.mem_cons_of_mem _ (ih h)

theorem getE_append_some (l1 l2 : List (Nat × CEntry)) (id : Nat) (e : CEntry)
    (h : getE l1 id = some e) : getE (l1 ++ l2) id = some e := by
  induction l1 with
  | nil => simp [getE] at h
  | cons p rest ih =>
    obtain ⟨i, e'⟩ := p
    simp only [getE, List.cons_append] at h ⊢
    split at h
    · rename_i hi; rw [if_pos hi]; exact h
    · rename_i hi; rw [if_neg hi]; exact ih h

theorem getE_append_none (l1 l2 : List (Nat × CEntry)) (id : Nat)
    (h : getE l1 id = none) : getE (l1 ++ l2) id = getE l2 id := by
  induction l1 with
  | nil => simp [getE]
  | cons p rest ih =>
    obtain ⟨i, e'⟩ := p
    simp only [getE, List.cons_append] at h ⊢
    split at h
    · simp at h
    · rename_i hi; rw [if_neg hi]; exact ih h

theorem getE_not_mem (l : List (Nat × CEntry)) (id : Nat)
    (h : id ∉ l.map (fun p => p.1)) : getE l id = none := by
  induction l with
  | nil => rfl
  | cons p rest ih =>
    obtain ⟨i, e⟩ := p
    simp only [List.map_cons, List.mem_cons] at h
    push_neg at h
    simp only [getE]
    rw [if_neg (fun hh => h.1 hh.symm)]
    exact ih h.2

theorem getE_removeE_other (l : List (Nat × CEntry)) (id id' : Nat) (h : id' ≠ id) :
    getE (removeE l id) id' = getE l id' := by
  induction l with
  | nil => rfl
  | cons p rest ih =>
    obtain ⟨i, e⟩ := p
    simp only [removeE, getE]
    split
    · rename_i hi
      subst hi
      rw [if_neg (fun hh => h hh.symm)]
    · simp only [getE]
      split
      · rfl
      · exact ih

theorem removeE_sublist (l : List (Nat × CEntry)) (id : Nat) :
    List.Sublist (removeE l id) l := by
  induction l with
  | nil => exact List.Sublist.refl _
  | cons p rest ih =>
    obtain ⟨i, e⟩ := p
    simp only [removeE]
    split
    · exact List.sublist_cons_self _ _
    · exact List.Sublist.cons₂ _ ih

theorem setRefs_map_fst (l : List (Nat × CEntry)) (id r : Nat) :
    (setRefs l id r).map (fun p => p.1) = l.map (fun p => p.1) := by
  induction l with
  | nil => rfl
  | cons p rest ih =>
    obtain ⟨i, e⟩ := p
    simp only [setRefs]
    split <;> simp [ih]

theorem getE_setRefs_self (l : List (Nat × CEntry)) (id r : Nat) (e : CEntry)
    (h : getE l id = some e) :
    getE (setRefs l id r) id = some { e with refs := r } := by
  induction l with
  | nil => simp [getE] at h
  | cons p rest ih =>
    obtain ⟨i, e'⟩ := p
    simp only [getE, setRefs] at h ⊢
    split at h
    · rename_i hi
      simp only [Option.some.injEq] at h
      subst h
      rw [if_pos hi]
      simp only [getE]
      rw [if_pos hi]
    · rename_i hi
      rw [if_neg hi]
      simp only [getE]
      rw [if_neg hi]
      exact ih h

theorem getE_setRefs_other (l : List (Nat × CEntry)) (id id' r : Nat) (h : id' ≠ id) :
    getE (setRefs l id r) id' = getE l id' := by
  induction l with
  | nil => rfl
  | cons p rest ih =>
    obtain ⟨i, e⟩ := p
    simp only [setRefs, getE]
    split
    · rename_i hi
      subst hi
      simp only [getE]
      rw [if_neg (fun hh => h hh.symm), if_neg (fun hh => h hh.symm)]
    · simp only [getE]
      split
      · rfl
      · exact ih

theorem sumCharges_append (l1 l2 : List (Nat × CEntry)) :
    sumCharges (l1 ++ l2) = sumCharges l1 + sumCharges l2 := by
  simp [sumCharges]

theorem sumCharges_removeE (l : List (Nat × CEntry)) (id : Nat) (e : CEntry)
    (h : getE l id = some e) :
    sumCharges (removeE l id) + e.charge = sumCharges l := by
  induction l with
  | nil => simp [getE] at h
  | cons p rest ih =>
    obtain ⟨i, e'⟩ := p
    simp only [getE] at h
    simp only [removeE]
    split
    · rename_i hi
      rw [if_pos hi] at h
      simp only [Option.some.injEq] at h
      subst h
      simp [sumCharges]
      omega
    · rename_i hi
      rw [if_neg hi] at h
      simp only [sumCharges, List.map_cons, List.sum_cons] at ih ⊢
      have := ih h
      omega

theorem charge_le_sumCharges (l : List (Nat × CEntry)) (id : Nat) (e : CEntry)
    (h : getE l id = some e) : e.charge ≤ sumCharges l := by
  have := sumCharges_removeE l id e h
  omega

theorem sumCharges_setRefs (l : List (Nat × CEntry)) (id r : Nat) :
    sumCharges (setRefs l id r) = sumCharges l := by
  induction l with
  | nil => rfl
  | cons p rest ih =>
    obtain ⟨i, e⟩ := p
    simp only [setRefs]
    split
    · simp [sumCharges]
    · simp only [sumCharges, List.map_cons, List.sum_cons] at ih ⊢
      omega

theorem unref_frame (s : Shard) (id : Nat) :
    (unref s id).lru = s.lru ∧ (unref s id).capacity = s.capacity ∧
    (unref s id).nextId = s.nextId := by
  cases hg : getE s.entries id with
  | none => simp [unref, hg]
  | some e =>
    by_cases h : e.refs ≤ 1
    · simp [unref, hg, h]
    · simp [unref, hg, h]

theorem unref_getE_other (s : Shard) (id id' : Nat) (h : id' ≠ id) :
    getE (unref s id).entries id' = getE s.entries id' := by
  cases hg : getE s.entries id with
  | none => simp [unref, hg]
  | some e =>
    by_cases hr : e.refs ≤ 1
    · simp only [unref, hg, if_pos hr]
      exact getE_removeE_other _ _ _ h
    · simp only [unref, hg, if_neg hr]
      exact getE_setRefs_other _ _ _ _ h

theorem idsLt_setRefs (l : List (Nat × CEntry)) (id r n : Nat)
    (h : ∀ p ∈ l, p.1 < n) : ∀ p ∈ setRefs l id r, p.1 < n := by
  intro p hp
  have hm : p.1 ∈ (setRefs l id r).map (fun q => q.1) := List.mem_map_of_mem _ hp
  rw [setRefs_map_fst] at hm
  obtain ⟨q, hq, hq1⟩ := List.mem_map.mp hm
  exact hq1 ▸ h q hq

theorem inv_unref_detached (s : Shard) (id : Nat) (hInv : Inv s) (hid : id ∉ s.lru) :
    Inv (unref s id) := by
  cases hg : getE s.entries id with
  | none =>
    have hstate : unref s id = s := by simp [unref, hg]
    rw [hstate]
    exact hInv
  | some e =>
    by_cases hr : e.refs ≤ 1
    case pos =>
      have hstate : unref s id
          = { s with entries := removeE s.entries id, usage := s.usage - e.charge } := by
        simp [unref, hg, hr]
      rw [hstate]
      refine ⟨?_, ?_, ?_, hInv.lruNodup, ?_, ?_⟩
      · exact hInv.nodupIds.sublist ((removeE_sublist _ _).map _)
      · intro p hp
        exact hInv.idsLt p ((removeE_sublist _ _).subset hp)
      · intro i hi
        obtain ⟨e', he'⟩ := hInv.lruSub i hi
        exact ⟨e', by
          rw [getE_removeE_other _ _ _ (fun hh => hid (by rw [← hh]; exact hi))]
          exact he'⟩
      · intro i hi e' he'
        rw [getE_removeE_other _ _ _ (fun hh => hid (by rw [← hh]; exact hi))] at he'
        exact hInv.refsPos i hi e' he'
      · have h1 := sumCharges_removeE s.entries id e hg
        have h2 := hInv.usageEq
        simp only
        omega
    case neg =>
      have hstate : unref s id
          = { s with entries := setRefs s.entries id (e.refs - 1) } := by
        simp [unref, hg, hr]
      rw [hstate]
      refine ⟨?_, ?_, ?_, hInv.lruNodup, ?_, ?_⟩
      · rw [setRefs_map_fst]
        exact hInv.nodupIds
      · exact idsLt_setRefs _ _ _ _ hInv.idsLt
      · intro i hi
        obtain ⟨e', he'⟩ := hInv.lruSub i hi
        exact ⟨e', by
          rw [getE_setRefs_other _ _ _ _ (fun hh => hid (by rw [← hh]; exact hi))]
          exact he'⟩
      · intro i hi e' he'
        rw [getE_setRefs_other _ _ _ _ (fun hh => hid (by rw [← hh]; exact hi))] at he'
        exact hInv.refsPos i hi e' he'
      · have := hInv.usageEq
        simp only [sumCharges_setRefs]
        exact this

theorem inv_lru_tail (s : Shard) (oldId : Nat) (tl : List Nat) (hInv : Inv s)
    (hl : s.lru = oldId :: tl) : Inv { s with lru := tl } := by
  refine ⟨hInv.nodupIds, hInv.idsLt, ?_, ?_, ?_, hInv.usageEq⟩
  · intro i hi
    exact hInv.lruSub i (by rw [hl]; exact List.mem_cons_of_mem _ hi)
  · have := hInv.lruNodup
    rw [hl] at this
    exact this.of_cons
  · intro i hi e he
    exact hInv.refsPos i (by rw [hl]; exact List.mem_cons_of_mem _ hi) e he

theorem inv_evictLoop (fuel : Nat) (s : Shard) (hInv : Inv s) :
    Inv (evictLoop fuel s) := by
  induction fuel generalizing s with
  | zero => exact hInv
  | succ f ih =>
    simp only [evictLoop]
    split
    · cases hl : s.lru with
      | nil => exact hInv
      | cons oldId tl =>
        apply ih
        have hnodup := hInv.lruNodup
        rw [hl] at hnodup
        exact inv_unref_detached _ _ (inv_lru_tail s oldId tl hInv hl)
          (by
            intro hmem
            exact (List.nodup_cons.mp hnodup).1 hmem)
    · exact hInv

theorem inv_lruRemove (s : Shard) (id : Nat) (hInv : Inv s) : Inv (lruRemove s id) := by
  refine ⟨hInv.nodupIds, hInv.idsLt, ?_, hInv.lruNodup.erase id, ?_, hInv.usageEq⟩
  · intro i hi
    exact hInv.lruSub i (List.mem_of_mem_erase hi)
  · intro i hi e he
    exact hInv.refsPos i (List.mem_of_mem_erase hi) e he

theorem getE_fresh (s : Shard) (hInv : Inv s) : getE s.entries s.nextId = none := by
  cases hg : getE s.entries s.nextId with
  | none => rfl
  | some e => exact absurd (hInv.idsLt _ (getE_mem _ _ _ hg)) (lt_irrefl _)

theorem lruIds_lt (s : Shard) (hInv : Inv s) : ∀ id ∈ s.lru, id < s.nextId := by
  intro id hid
  obtain ⟨e, he⟩ := hInv.lruSub id hid
  exact hInv.idsLt _ (getE_mem _ _ _ he)

theorem inv_insert (s : Shard) (k c : Nat) (hInv : Inv s) : Inv (insert s k c).2 := by
  have hfresh := getE_fresh s hInv
  have hnidlru : s.nextId ∉ s.lru :=
    fun hmem => absurd (lruIds_lt s hInv _ hmem) (lt_irrefl _)
  have hidslt : ∀ a ∈ s.entries.map (fun p => p.1), a < s.nextId := by
    intro a ha
    obtain ⟨p, hp, hp1⟩ := List.mem_map.mp ha
    exact hp1 ▸ hInv.idsLt p hp
  have hInv1 : Inv { s with
      entries := s.entries ++ [(s.nextId, { key := k, charge := c, refs := 2 })]
      lru := s.lru ++ [s.nextId]
      usage := s.usage + c
      nextId := s.nextId + 1 } := by
    refine ⟨?_, ?_, ?_, ?_, ?_, ?_⟩
    · simp only [List.map_append, List.map_cons, List.map_nil]
      rw [List.nodup_append]
      refine ⟨hInv.nodupIds, List.nodup_singleton _, ?_⟩
      intro a ha hb
      simp only [List.mem_singleton] at hb
      subst hb
      exact absurd (hidslt _ ha) (lt_irrefl _)
    · intro p hp
      rcases List.mem_append.mp hp with hp | hp
      · exact Nat.lt_succ_of_lt (hInv.idsLt p hp)
      · simp only [List.mem_singleton] at hp
        subst hp
        exact Nat.lt_succ_self _
    · intro i hi
      rcases List.mem_append.mp hi with hi | hi
      · obtain ⟨e, he⟩ := hInv.lruSub i hi
        exact ⟨e, getE_append_some _ _ _ _ he⟩
      · simp only [List.mem_singleton] at hi
        subst hi
        refine ⟨{ key := k, charge := c, refs := 2 }, ?_⟩
        rw [getE_append_none _ _ _ hfresh]
        simp [getE]
    · rw [List.nodup_append]
      refine ⟨hInv.lruNodup, List.nodup_singleton _, ?_⟩
      intro a ha hb
      simp only [List.mem_singleton] at hb
      subst hb
      exact hnidlru ha
    · intro i hi e' he'
      rcases List.mem_append.mp hi with hi | hi
      · obtain ⟨e, he⟩ := hInv.lruSub i hi
        rw [getE_append_some _ _ _ _ he] at he'
        injection he' with hee
        subst hee
        exact hInv.refsPos i hi e he
      · simp only [List.mem_singleton] at hi
        subst hi
        rw [getE_append_none _ _ _ hfresh] at he'
        simp [getE] at he'
        rw [← he']
        norm_num
    · simp only [sumCharges_append]
      have h1 := hInv.usageEq
      have h2 : sumCharges [(s.nextId, { key := k, charge := c, refs := 2 })] = c := by
        simp [sumCharges]
      omega
  cases hold : findKey s k with
  | none =>
    simp only [insert, hold]
    exact inv_evictLoop _ _ hInv1
  | some oldId =>
    simp only [insert, hold]
    refine inv_evictLoop _ _ (inv_unref_detached _ _ (inv_lruRemove _ _ hInv1) ?_)
    exact hInv1.lruNodup.not_mem_erase

theorem inv_lookup (s : Shard) (k : Nat) (hInv : Inv s) : Inv (lookup s k).2 := by
  cases hf : findKey s k with
  | none => simp only [lookup, hf]; exact hInv
  | some id =>
    have hmem : id ∈ s.lru := List.mem_of_find?_eq_some hf
    cases hg : getE s.entries id with
    | none => simp only [lookup, hf, hg]; exact hInv
    | some e =>
      simp only [lookup, hf, hg, lruAppend, lruRemove]
      have hnd := hInv.lruNodup
      refine ⟨?_, ?_, ?_, ?_, ?_, ?_⟩
      · rw [setRefs_map_fst]
        exact hInv.nodupIds
      · exact idsLt_setRefs _ _ _ _ hInv.idsLt
      · intro i hi
        rcases List.mem_append.mp hi with hi | hi
        · have hne : i ≠ id := fun hh => (hnd.not_mem_erase) (hh ▸ hi)
          obtain ⟨e0, he0⟩ := hInv.lruSub i (List.mem_of_mem_erase hi)
          refine ⟨e0, ?_⟩
          rw [getE_setRefs_other _ _ _ _ hne]
          exact he0
        · simp only [List.mem_singleton] at hi
          subst hi
          exact ⟨_, getE_setRefs_self _ _ _ _ hg⟩
      · rw [List.nodup_append]
        refine ⟨hnd.erase id, List.nodup_singleton _, ?_⟩
        intro a ha hb
        simp only [List.mem_singleton] at hb
        subst hb
        exact hnd.not_mem_erase ha
      · intro i hi e' he'
        rcases List.mem_append.mp hi with hi | hi
        · have hne : i ≠ id := fun hh => (hnd.not_mem_erase) (hh ▸ hi)
          rw [getE_setRefs_other _ _ _ _ hne] at he'
          exact hInv.refsPos i (List.mem_of_mem_erase hi) e' he'
        · simp only [List.mem_singleton] at hi
          subst hi
          rw [getE_setRefs_self _ _ _ _ hg] at he'
          injection he' with hee
          subst hee
          norm_num
      · simp only [sumCharges_setRefs]
        exact hInv.usageEq

theorem inv_release (s : Shard) (id : Nat) (hInv : Inv s) : Inv (release s id) := by
  cases hg : getE s.entries id with
  | none => simp only [release, hg]; exact hInv
  | some e =>
    simp only [release, hg]
    by_cases hmem : id ∈ s.lru
    · simp only [hmem, if_true]
      by_cases hr : 2 ≤ e.refs
      · rw [if_pos hr]
        have hstate : unref s id
            = { s with entries := setRefs s.entries id (e.refs - 1) } := by
          simp [unref, hg]
          intro hh
          omega
        rw [hstate]
        refine ⟨?_, ?_, ?_, hInv.lruNodup, ?_, ?_⟩
        · rw [setRefs_map_fst]
          exact hInv.nodupIds
        · exact idsLt_setRefs _ _ _ _ hInv.idsLt
        · intro i hi
          by_cases hne : i = id
          · subst hne
            exact ⟨_, getE_setRefs_self _ _ _ _ hg⟩
          · obtain ⟨e0, he0⟩ := hInv.lruSub i hi
            refine ⟨e0, ?_⟩
            rw [getE_setRefs_other _ _ _ _ hne]
            exact he0
        · intro i hi e' he'
          by_cases hne : i = id
          · subst hne
            rw [getE_setRefs_self _ _ _ _ hg] at he'
            injection he' with hee
            subst hee
            simp only
            omega
          · rw [getE_setRefs_other _ _ _ _ hne] at he'
            exact hInv.refsPos i hi e' he'
        · simp only [sumCharges_setRefs]
          exact hInv.usageEq
      · rw [if_neg hr]
        exact hInv
    · simp only [hmem, if_false]
      by_cases hr : 1 ≤ e.refs
      · rw [if_pos hr]
        exact inv_unref_detached _ _ hInv hmem
      · rw [if_neg hr]
        exact hInv

theorem inv_erase (s : Shard) (k : Nat) (hInv : Inv s) : Inv (erase s k) := by
  cases hf : findKey s k with
  | none => simp only [erase, hf]; exact hInv
  | some id =>
    simp only [erase, hf]
    exact inv_unref_detached _ _ (inv_lruRemove _ _ hInv) (hInv.lruNodup.not_mem_erase)

theorem inv_pruneLoop (ids : List Nat) (s : Shard) (hInv : Inv s) :
    Inv (pruneLoop ids s) := by
  induction ids generalizing s with
  | nil => exact hInv
  | cons id rest ih =>
    cases hg : getE s.entries id with
    | none =>
      have hstate : pruneLoop (id :: rest) s = pruneLoop rest s := by
        simp [pruneLoop, hg]
      rw [hstate]
      exact ih s hInv
    | some e =>
      by_cases hr : e.refs = 1
      · have hstate : pruneLoop (id :: rest) s
            = pruneLoop rest (unref (lruRemove s id) id) := by
          simp [pruneLoop, hg, hr]
        rw [hstate]
        exact ih _ (inv_unref_detached _ _ (inv_lruRemove _ _ hInv)
          (hInv.lruNodup.not_mem_erase))
      · have hstate : pruneLoop (id :: rest) s = pruneLoop rest s := by
          simp [pruneLoop, hg, hr]
        rw [hstate]
        exact ih s hInv

theorem inv_step (s : Shard) (op : Op) (hInv : Inv s) : Inv (step s op) := by
  cases op with
  | insert k c => exact inv_insert s k c hInv
  | lookup k => exact inv_lookup s k hInv
  | release id => exact inv_release s id hInv
  | erase k => exact inv_erase s k hInv
  | prune => exact inv_pruneLoop s.lru s hInv

theorem inv_init (cap : Nat) : Inv (initShard cap) := by
  refine ⟨?_, ?_, ?_, ?_, ?_, ?_⟩ <;> simp [initShard, sumCharges]

theorem inv_run (ops : List Op) (cap : Nat) : Inv (run ops (initShard cap)) := by
  suffices h : ∀ s, Inv s → Inv (run ops s) from h _ (inv_init cap)
  induction ops with
  | nil => intro s h; exact h
  | cons op rest ih =>
    intro s h
    exact ih _ (inv_step s op h)

theorem evictLoop_cons (f : Nat) (s : Shard) (oldId : Nat) (tl : List Nat)
    (hl : s.lru = oldId :: tl) (hu : s.capacity < s.usage) :
    evictLoop (f + 1) s = evictLoop f (unref { s with lru := tl } oldId) := by
  simp [evictLoop, hu, hl]

theorem evictLoop_nil (f : Nat) (s : Shard) (hl : s.lru = []) :
    evictLoop (f + 1) s = s := by
  by_cases hu : s.capacity < s.usage
  · simp [evictLoop, hu, hl]
  · simp [evictLoop, hu]

theorem evictLoop_le (f : Nat) (s : Shard) (hu : ¬ s.capacity < s.usage) :
    evictLoop (f + 1) s = s := by
  simp [evictLoop, hu]

theorem evictLoop_lru_sub (fuel : Nat) (s : Shard) :
    ∀ id ∈ (evictLoop fuel s).lru, id ∈ s.lru := by
  induction fuel generalizing s with
  | zero => intro id h; exact h
  | succ f ih =>
    by_cases hu : s.capacity < s.usage
    · cases hl : s.lru with
      | nil =>
        rw [evictLoop_nil f s hl]
        intro id h
        rw [hl] at h
        exact h
      | cons oldId tl =>
        rw [evictLoop_cons f s oldId tl hl hu]
        intro id hid
        have hmem := ih _ id hid
        rw [(unref_frame _ _).1] at hmem
        exact List.mem_cons_of_mem _ hmem
    · rw [evictLoop_le f s hu]; intro id h; exact h

theorem evictLoop_not_in_lru (fuel : Nat) (s : Shard) (id : Nat) (hid : id ∉ s.lru) :
    getE (evictLoop fuel s).entries id = getE s.entries id := by
  induction fuel generalizing s with
  | zero => rfl
  | succ f ih =>
    by_cases hu : s.capacity < s.usage
    · cases hl : s.lru with
      | nil => rw [evictLoop_nil f s hl]
      | cons oldId tl =>
        rw [evictLoop_cons f s oldId tl hl hu]
        have hne : id ≠ oldId := by
          intro hh
          subst hh
          exact hid (by rw [hl]; exact List.mem_cons_self _ _)
        have hnt : id ∉ tl := fun hh => hid (by rw [hl]; exact List.mem_cons_of_mem _ hh)
        rw [ih _ (by rw [(unref_frame _ _).1]; exact hnt)]
        exact unref_getE_other _ _ _ hne
    · rw [evictLoop_le f s hu]

theorem evictLoop_pinned (fuel : Nat) (s : Shard) (id : Nat) (e : CEntry)
    (hnd : s.lru.Nodup) (hg : getE s.entries id = some e) (h2 : 2 ≤ e.refs) :
    ∃ e', getE (evictLoop fuel s).entries id = some e' ∧ 1 ≤ e'.refs ∧
      e.refs - 1 ≤ e'.refs ∧ e'.key = e.key ∧ e'.charge = e.charge := by
  induction fuel generalizing s e with
  | zero => exact ⟨e, hg, by omega, by omega, rfl, rfl⟩
  | succ f ih =>
    by_cases hu : s.capacity < s.usage
    · cases hl : s.lru with
      | nil =>
        rw [evictLoop_nil f s hl]
        exact ⟨e, hg, by omega, by omega, rfl, rfl⟩
      | cons oldId tl =>
        rw [evictLoop_cons f s oldId tl hl hu]
        have hndtl : tl.Nodup := by
          rw [hl] at hnd
          exact hnd.of_cons
        by_cases hne : id = oldId
        · subst hne
          have hstate : unref { s with lru := tl } id
              = { s with lru := tl, entries := setRefs s.entries id (e.refs - 1) } := by
            have hg2 : getE ({ s with lru := tl } : Shard).entries id = some e := hg
            simp only [unref, hg2]
            rw [if_neg (by omega)]
          rw [hstate]
          have hnotin : id ∉ tl := by
            rw [hl] at hnd
            exact (List.nodup_cons.mp hnd).1
          rw [evictLoop_not_in_lru f _ id hnotin]
          refine ⟨{ e with refs := e.refs - 1 }, getE_setRefs_self _ _ _ _ hg, ?_, ?_, rfl, rfl⟩
          · show 1 ≤ e.refs - 1
            omega
          · show e.refs - 1 ≤ e.refs - 1
            omega
        · have hg2 : getE (unref { s with lru := tl } oldId).entries id = some e := by
            rw [unref_getE_other _ _ _ hne]
            exact hg
          exact ih (unref { s with lru := tl } oldId) e
            (by rw [(unref_frame _ _).1]; exact hndtl) hg2 h2
    · rw [evictLoop_le f s hu]
      exact ⟨e, hg, by omega, by omega, rfl, rfl⟩

theorem insert_s1_inv (s : Shard) (k c : Nat) (hInv : Inv s) :
    Inv { s with
      entries := s.entries ++ [(s.nextId, { key := k, charge := c, refs := 2 })]
      lru := s.lru ++ [s.nextId]
      usage := s.usage + c
      nextId := s.nextId + 1 } := by
  have h := inv_insert s k c hInv
  exact (by
    have hfresh := getE_fresh s hInv
    have hnidlru : s.nextId ∉ s.lru :=
      fun hmem => absurd (lruIds_lt s hInv _ hmem) (lt_irrefl _)
    have hidslt : ∀ a ∈ s.entries.map (fun p => p.1), a < s.nextId := by
      intro a ha
      obtain ⟨p, hp, hp1⟩ := List.mem_map.mp ha
      exact hp1 ▸ hInv.idsLt p hp
    refine ⟨?_, ?_, ?_, ?_, ?_, ?_⟩
    · simp only [List.map_append, List.map_cons, List.map_nil]
      rw [List.nodup_append]
      refine ⟨hInv.nodupIds, List.nodup_singleton _, ?_⟩
      intro a ha hb
      simp only [List.mem_singleton] at hb
      subst hb
      exact absurd (hidslt _ ha) (lt_irrefl _)
    · intro p hp
      rcases List.mem_append.mp hp with hp | hp
      · exact Nat.lt_succ_of_lt (hInv.idsLt p hp)
      · simp only [List.mem_singleton] at hp
        subst hp
        exact Nat.lt_succ_self _
    · intro i hi
      rcases List.mem_append.mp hi with hi | hi
      · obtain ⟨e, he⟩ := hInv.lruSub i hi
        exact ⟨e, getE_append_some _ _ _ _ he⟩
      · simp only [List.mem_singleton] at hi
        subst hi
        refine ⟨{ key := k, charge := c, refs := 2 }, ?_⟩
        rw [getE_append_none _ _ _ hfresh]
        simp [getE]
    · rw [List.nodup_append]
      refine ⟨hInv.lruNodup, List.nodup_singleton _, ?_⟩
      intro a ha hb
      simp only [List.mem_singleton] at hb
      subst hb
      exact hnidlru ha
    · intro i hi e' he'
      rcases List.mem_append.mp hi with hi | hi
      · obtain ⟨e, he⟩ := hInv.lruSub i hi
        rw [getE_append_some _ _ _ _ he] at he'
        injection he' with hee
        subst hee
        exact hInv.refsPos i hi e he
      · simp only [List.mem_singleton] at hi
        subst hi
        rw [getE_append_none _ _ _ hfresh] at he'
        simp [getE] at he'
        rw [← he']
        norm_num
    · simp only [sumCharges_append]
      have h1 := hInv.usageEq
      have h2 : sumCharges [(s.nextId, { key := k, charge := c, refs := 2 })] = c := by
        simp [sumCharges]
      omega)

theorem insert_pinned_preserved (s : Shard) (k c : Nat) (hInv : Inv s) :
    (∀ id e, getE s.entries id = some e → 2 ≤ e.refs →
      ∃ e', getE ((insert s k c).2).entries id = some e' ∧ 1 ≤ e'.refs ∧
        e'.key = e.key ∧ e'.charge = e.charge) ∧
    (∀ id e, getE s.entries id = some e → id ∉ s.lru →
      getE ((insert s k c).2).entries id = some e) := by
  have hInv1 := insert_s1_inv s k c hInv
  constructor
  · intro id e hg h2
    have hlt : id < s.nextId := hInv.idsLt _ (getE_mem _ _ _ hg)
    have hg1 : getE ({ s with
        entries := s.entries ++ [(s.nextId, { key := k, charge := c, refs := 2 })]
        lru := s.lru ++ [s.nextId]
        usage := s.usage + c
        nextId := s.nextId + 1 } : Shard).entries id = some e :=
      getE_append_some _ _ _ _ hg
    cases hold : findKey s k with
    | none =>
      simp only [insert, hold]
      obtain ⟨e1, ha, hb, hc, hd, he2⟩ := evictLoop_pinned
        ((s.lru ++ [s.nextId]).length) _ id e hInv1.lruNodup hg1 h2
      exact ⟨e1, ha, hb, hd, he2⟩
    | some oldId =>
      simp only [insert, hold]
      by_cases hne : id = oldId
      · subst hne
        have hstate :
            unref (lruRemove { s with
              entries := s.entries ++ [(s.nextId, { key := k, charge := c, refs := 2 })]
              lru := s.lru ++ [s.nextId]
              usage := s.usage + c
              nextId := s.nextId + 1 } id) id
            = { s with
                entries := setRefs
                  (s.entries ++ [(s.nextId, { key := k, charge := c, refs := 2 })])
                  id (e.refs - 1)
                lru := (s.lru ++ [s.nextId]).erase id
                usage := s.usage + c
                nextId := s.nextId + 1 } := by
          simp only [unref, lruRemove, hg1]
          rw [if_neg (by omega)]
        rw [hstate]
        rw [evictLoop_not_in_lru]
        · refine ⟨{ e with refs := e.refs - 1 }, getE_setRefs_self _ _ _ _ hg1, ?_, rfl, rfl⟩
          show 1 ≤ e.refs - 1
          omega
        · exact hInv1.lruNodup.not_mem_erase
      · have hg2 : getE (unref (lruRemove { s with
            entries := s.entries ++ [(s.nextId, { key := k, charge := c, refs := 2 })]
            lru := s.lru ++ [s.nextId]
            usage := s.usage + c
            nextId := s.nextId + 1 } oldId) oldId).entries id = some e := by
          rw [unref_getE_other _ _ _ hne]
          exact hg1
        have hnd2 : (unref (lruRemove { s with
            entries := s.entries ++ [(s.nextId, { key := k, charge := c, refs := 2 })]
            lru := s.lru ++ [s.nextId]
            usage := s.usage + c
            nextId := s.nextId + 1 } oldId) oldId).lru.Nodup := by
          rw [(unref_frame _ _).1]
          exact hInv1.lruNodup.erase _
        obtain ⟨e1, ha, hb, hc, hd, he2⟩ := evictLoop_pinned _ _ id e hnd2 hg2 h2
        exact ⟨e1, ha, hb, hd, he2⟩
  · intro id e hg hnl
    have hlt : id < s.nextId := hInv.idsLt _ (getE_mem _ _ _ hg)
    have hg1 : getE ({ s with
        entries := s.entries ++ [(s.nextId, { key := k, charge := c, refs := 2 })]
        lru := s.lru ++ [s.nextId]
        usage := s.usage + c
        nextId := s.nextId + 1 } : Shard).entries id = some e :=
      getE_append_some _ _ _ _ hg
    have hnl1 : id ∉ s.lru ++ [s.nextId] := by
      intro hmem
      rcases List.mem_append.mp hmem with hmem | hmem
      · exact hnl hmem
      · simp only [List.mem_singleton] at hmem
        omega
    cases hold : findKey s k with
    | none =>
      simp only [insert, hold]
      rw [evictLoop_not_in_lru _ _ _ hnl1]
      exact hg1
    | some oldId =>
      have holdmem : oldId ∈ s.lru := List.mem_of_find?_eq_some hold
      have hne : id ≠ oldId := fun hh => hnl (hh ▸ holdmem)
      simp only [insert, hold]
      rw [evictLoop_not_in_lru]
      · rw [unref_getE_other _ _ _ hne]
        exact hg1
      · rw [(unref_frame _ _).1]
        simp only [lruRemove]
        intro hmem
        exact hnl1 (List.mem_of_mem_erase hmem)

end LRU

/-- C2 counterexample: shard capacity 1; insert key 0 and keep the returned
handle (refs = 2: the entry is pinned), then insert key 1.  The second
Insert's eviction loop evicts the pinned entry: it disappears from the hash
table and the LRU list while the client still holds its handle (refs drops
to 1; it is not freed). -/
theorem lru_insert_evicts_pinned_counterexample :
    LRU.getE (LRU.run [LRU.Op.insert 0 1] (LRU.initShard 1)).entries 0
      = some { key := 0, charge := 1, refs := 2 } ∧
    0 ∈ (LRU.run [LRU.Op.insert 0 1] (LRU.initShard 1)).lru ∧
    0 ∉ (LRU.run [LRU.Op.insert 0 1, LRU.Op.insert 1 1] (LRU.initShard 1)).lru ∧
    LRU.findKey (LRU.run [LRU.Op.insert 0 1, LRU.Op.insert 1 1] (LRU.initShard 1)) 0
      = none ∧
    LRU.getE (LRU.run [LRU.Op.insert 0 1, LRU.Op.insert 1 1] (LRU.initShard 1)).entries 0
      = some { key := 0, charge := 1, refs := 1 } := by
  decide

/-- C2 (amended): for every reachable shard state, Insert's eviction
touches only entries on the LRU list — an allocated entry off the list is
left exactly as it was — and it evicts regardless of reference counts; a
pinned entry (refs ≥ 2) may be detached from the cache but is never freed
by Insert: it survives with refs ≥ 1 and its deleter runs only when the
last client handle is released. -/
theorem lru_insert_pinned_never_freed :
    ∀ (cap : Nat) (ops : List LRU.Op) (k c : Nat),
      (∀ id e, LRU.getE (LRU.run ops (LRU.initShard cap)).entries id = some e →
        2 ≤ e.refs →
        ∃ e', LRU.getE ((LRU.insert (LRU.run ops (LRU.initShard cap)) k c).2).entries id
            = some e' ∧ 1 ≤ e'.refs ∧ e'.key = e.key ∧ e'.charge = e.charge) ∧
      (∀ id e, LRU.getE (LRU.run ops (LRU.initShard cap)).entries id = some e →
        id ∉ (LRU.run ops (LRU.initShard cap)).lru →
        LRU.getE ((LRU.insert (LRU.run ops (LRU.initShard cap)) k c).2).entries id
          = some e) :=
  fun cap ops k c => LRU.insert_pinned_preserved _ k c (LRU.inv_run ops cap)

/-- Witness for C2 (amended): the pinned entry of the counterexample state
survives the over-capacity insert with refs ≥ 1 and its key and charge
intact. -/
theorem lru_insert_pinned_never_freed_witness :
    ∃ e', LRU.getE ((LRU.insert (LRU.run [LRU.Op.insert 0 1] (LRU.initShard 1)) 1 1).2).entries 0
        = some e' ∧ 1 ≤ e'.refs ∧ e'.key = 0 ∧ e'.charge = 1 :=
  (lru_insert_pinned_never_freed 1 [LRU.Op.insert 0 1] 1 1).1 0
    { key := 0, charge := 1, refs := 2 } (by decide) (by decide)

/-- C5 counterexample: after the two inserts of the pinned-eviction scenario
the shard's `usage` is 2, but the LRU list is empty, so the sum of the
charges of the entries on the shard's list is 0: `usage` does not equal the
sum of charges over the entries on the lists. -/
theorem lru_usage_not_list_charges_counterexample :
    (LRU.run [LRU.Op.insert 0 1, LRU.Op.insert 1 1] (LRU.initShard 1)).usage = 2 ∧
    LRU.sumCharges (LRU.lruEntries
      (LRU.run [LRU.Op.insert 0 1, LRU.Op.insert 1 1] (LRU.initShard 1))) = 0 ∧
    ¬ ((LRU.run [LRU.Op.insert 0 1, LRU.Op.insert 1 1] (LRU.initShard 1)).usage
        = LRU.sumCharges (LRU.lruEntries
            (LRU.run [LRU.Op.insert 0 1, LRU.Op.insert 1 1] (LRU.initShard 1)))) := by
  decide

/-- C5 (amended): for every shard state reachable by any sequence of
insert/lookup/release/erase/prune operations, `usage` equals the total
charge of the allocated entries — the entries on the LRU list plus any
detached entries still held by clients — every entry on the LRU list has
refs ≥ 1, and no entry appears on the list twice. -/
theorem lru_shard_invariant :
    ∀ (cap : Nat) (ops : List LRU.Op),
      (LRU.run ops (LRU.initShard cap)).usage
        = LRU.sumCharges (LRU.run ops (LRU.initShard cap)).entries ∧
      (∀ id ∈ (LRU.run ops (LRU.initShard cap)).lru,
        ∀ e, LRU.getE (LRU.run ops (LRU.initShard cap)).entries id = some e →
          1 ≤ e.refs) ∧
      (LRU.run ops (LRU.initShard cap)).lru.Nodup :=
  fun cap ops =>
    ⟨(LRU.inv_run ops cap).usageEq,
     fun id hid e he => (LRU.inv_run ops cap).refsPos id hid e he,
     (LRU.inv_run ops cap).lruNodup⟩

/-- Witness for C5 (amended) on the one-insert state: usage matches the
total charge, the single listed entry has refs ≥ 1, and the list has no
duplicates. -/
theorem lru_shard_invariant_witness :
    (LRU.run [LRU.Op.insert 0 1] (LRU.initShard 1)).usage
      = LRU.sumCharges (LRU.run [LRU.Op.insert 0 1] (LRU.initShard 1)).entries ∧
    1 ≤ ({ key := 0, charge := 1, refs := 2 } : LRU.CEntry).refs ∧
    (LRU.run [LRU.Op.insert 0 1] (LRU.initShard 1)).lru.Nodup :=
  ⟨(lru_shard_invariant 1 [LRU.Op.insert 0 1]).1,
   (lru_shard_invariant 1 [LRU.Op.insert 0 1]).2.1 0 (by decide)
     { key := 0, charge := 1, refs := 2 } (by decide),
   (lru_shard_invariant 1 [LRU.Op.insert 0 1]).2.2⟩

namespace LogReader

theorem sub64_eq_sub (a b : Nat) (hb : b ≤ a) (ha : a < 2^64) : sub64 a b = a - b := by
  unfold sub64
  rw [Nat.mod_eq_of_lt ha, Nat.mod_eq_of_lt (lt_of_le_of_lt hb ha)]
  omega

theorem readPhysical_resyncing (r : Reader) :
    (readPhysical r).2.resyncing = r.resyncing := by
  unfold readPhysical parsePhysical reportDrop
  dsimp only
  split
  · split
    · split
      · rfl
      · split
        · split
          · split <;> rfl
          · rfl
        · split
          · rfl
          · split
            · split <;> rfl
            · split <;> rfl
    · rfl
  · split
    · split
      · split <;> rfl
      · rfl
    · split
      · rfl
      · split
        · split <;> rfl
        · split <;> rfl

theorem readPhysical_tail (r : Reader) (hb : r.buffer = []) (he : r.eofFlag = false)
    (htail : (r.file.drop r.pos).length < kBlockSize)
    (hcase : (r.file.drop r.pos).length < kHeaderSize ∨
      (r.file.drop r.pos).length < kHeaderSize + declaredLen (r.file.drop r.pos)) :
    ∃ r1 : Reader, readPhysical r = (.eof, r1) ∧ r1.reports = r.reports ∧
      r1.resyncing = r.resyncing := by
  have h0 : r.buffer.length < kHeaderSize := by rw [hb]; decide
  have hchunk : (r.file.drop r.pos).take kBlockSize = r.file.drop r.pos :=
    List.take_of_length_le (Nat.le_of_lt htail)
  unfold readPhysical
  rw [if_pos h0, if_pos he]
  simp only [hchunk]
  by_cases hA : (r.file.drop r.pos).length < kHeaderSize
  · rw [if_pos hA]
    exact ⟨_, rfl, rfl, rfl⟩
  · rw [if_neg hA]
    have hB : (r.file.drop r.pos).length < kHeaderSize + declaredLen (r.file.drop r.pos) := by
      rcases hcase with h | h
      · exact absurd h hA
      · exact h
    unfold parsePhysical
    rw [if_pos (by omega : kHeaderSize + declaredLen (r.file.drop r.pos) >
      ((r.file.drop r.pos)).length)]
    have htail2 : r.file.length - r.pos < kBlockSize := by
      rw [List.length_drop] at htail
      exact htail
    rw [if_neg (by simp [htail2])]
    exact ⟨_, rfl, rfl, rfl⟩

theorem step_of_eof (r : Reader) (inFrag : Bool) (scratch : List Nat) (prosp : Nat)
    (r1 : Reader) (hphys : readPhysical r = (.eof, r1)) :
    ∃ r2 : Reader, readRecordStep r inFrag scratch prosp = .done none r2 ∧
      r2.reports = r1.reports := by
  unfold readRecordStep
  rw [hphys]
  dsimp only
  by_cases hrs : r1.resyncing = true
  · rw [if_pos hrs]
    exact ⟨_, rfl, rfl⟩
  · rw [if_neg hrs]
    exact ⟨_, rfl, rfl⟩

/-- C7: when the reader reaches a short final block (the read that returned
it set `eof_`), a truncated tail header or a declared length running past the
remaining bytes makes `ReadRecord` return false with no corruption report. -/
theorem readRecord_short_tail_eof_silent (r : Reader)
    (hskip : r.initialOffset ≤ r.lastRecordOffset)
    (hb : r.buffer = []) (he : r.eofFlag = false)
    (htail : (r.file.drop r.pos).length < kBlockSize)
    (hcase : (r.file.drop r.pos).length < kHeaderSize ∨
      (r.file.drop r.pos).length < kHeaderSize + declaredLen (r.file.drop r.pos)) :
    (readRecord r).1 = none ∧ (readRecord r).2.reports = r.reports := by
  obtain ⟨r1, hphys, hrep, hres⟩ := readPhysical_tail r hb he htail hcase
  obtain ⟨r2, hstep, hrep2⟩ := step_of_eof r false [] 0 r1 hphys
  unfold readRecord
  rw [if_neg (Nat.not_lt.mpr hskip)]
  have hf : recordFuel r = (2 * (r.file.length - r.pos) + r.buffer.length + 2) + 1 := by
    unfold recordFuel; omega
  rw [hf]
  rw [readRecordAux]
  rw [hstep]
  constructor
  · rfl
  · show r2.reports = r.reports
    rw [hrep2, hrep]

theorem readRecord_short_tail_eof_silent_witness :
    (readRecord (mkReader [1, 2, 3] true 0)).1 = none ∧
    (readRecord (mkReader [1, 2, 3] true 0)).2.reports = [] :=
  readRecord_short_tail_eof_silent (mkReader [1, 2, 3] true 0) (by decide) rfl rfl
    (by decide) (Or.inl (by decide))

theorem c7file_length : c7file.length = 32768 := by
  show ([0, 0, 0, 0, 255, 255, 1] ++ List.replicate 32761 0).length = 32768
  rw [List.length_append, List.length_replicate]
  decide

theorem c7file_declaredLen : declaredLen c7file = 65535 := rfl

theorem step_of_bad_notfrag (r : Reader) (prosp : Nat) (r1 : Reader)
    (hphys : readPhysical r = (.bad, r1)) (hres : r1.resyncing = false) :
    readRecordStep r false [] prosp = .cont r1 false [] prosp := by
  unfold readRecordStep
  rw [hphys]
  dsimp only
  rw [if_neg (by simp [hres])]
  simp [handleSwitch]

theorem readPhysical_fresh_badlen (r : Reader) (hb : r.buffer = []) (he : r.eofFlag = false)
    (hexact : (r.file.drop r.pos).length = kBlockSize)
    (hover : kBlockSize < kHeaderSize + declaredLen (r.file.drop r.pos)) :
    readPhysical r =
      (.bad, reportDrop
        { r with
            buffer := ([] : List Nat)
            pos := r.pos + kBlockSize
            endOfBufferOffset := r.endOfBufferOffset + kBlockSize
            eofFlag := false }
        kBlockSize "bad record length") := by
  have h0 : r.buffer.length < kHeaderSize := by rw [hb]; decide
  have hchunk : (r.file.drop r.pos).take kBlockSize = r.file.drop r.pos :=
    List.take_of_length_le (Nat.le_of_eq hexact)
  unfold readPhysical
  rw [if_pos h0, if_pos he]
  simp only [hchunk, hexact]
  rw [if_neg (by simp [hexact, kHeaderSize, kBlockSize])]
  unfold parsePhysical
  dsimp only
  rw [if_pos (by simp [hexact]; omega)]
  rw [if_pos (by simp)]
  simp [hexact]

theorem c7_readPhysical_one : readPhysical (mkReader c7file true 0) = (.bad, c7mid) := by
  have hexact : ((mkReader c7file true 0).file.drop (mkReader c7file true 0).pos).length
      = kBlockSize := by
    show (c7file.drop 0).length = kBlockSize
    rw [List.drop_zero, c7file_length]
    rfl
  have hover : kBlockSize < kHeaderSize +
      declaredLen ((mkReader c7file true 0).file.drop (mkReader c7file true 0).pos) := by
    show kBlockSize < kHeaderSize + declaredLen (c7file.drop 0)
    rw [List.drop_zero, c7file_declaredLen]
    decide
  rw [readPhysical_fresh_badlen (mkReader c7file true 0) rfl rfl hexact hover]
  simp [reportDrop, mkReader, c7mid, sub64, kBlockSize]

theorem c7_noskip : ¬ ((mkReader c7file true 0).lastRecordOffset <
    (mkReader c7file true 0).initialOffset) := by
  show ¬ ((0:Nat) < 0)
  omega

theorem readRecord_of_noskip (r : Reader) (h : ¬ (r.lastRecordOffset < r.initialOffset)) :
    readRecord r = readRecordAux (recordFuel r) r false [] 0 := by
  unfold readRecord
  rw [if_neg h]

theorem recordFuel_mkReader (f : List Nat) (cs : Bool) (io : Nat) :
    recordFuel (mkReader f cs io) = 2 * f.length + 3 := by
  unfold recordFuel mkReader
  dsimp only
  simp

theorem c7fuel : recordFuel (mkReader c7file true 0) = 65538 + 1 := by
  rw [recordFuel_mkReader, c7file_length]

/-- C7 counterexample: a log file of exactly one full block whose header
declares a length past EOF is reported as "bad record length" by ReadRecord,
because the reader has not yet observed EOF when it parses the header. -/
theorem readRecord_block_boundary_overrun_reported :
    c7file.length % kBlockSize = 0 ∧
    c7file.length < kHeaderSize + declaredLen c7file ∧
    (readRecord (mkReader c7file true 0)).1 = none ∧
    (readRecord (mkReader c7file true 0)).2.reports = [(32768, "bad record length")] := by
  refine ⟨?_, ?_, ?_⟩
  · rw [c7file_length]
    decide
  · rw [c7file_length, c7file_declaredLen]
    decide
  have hstep1 : readRecordStep (mkReader c7file true 0) false [] 0 = .cont c7mid false [] 0 :=
    step_of_bad_notfrag _ 0 c7mid c7_readPhysical_one rfl
  have hdrop : c7file.drop 32768 = [] := List.drop_eq_nil_of_le (by rw [c7file_length])
  have htail : ((c7mid.file).drop c7mid.pos).length < kBlockSize := by
    show (c7file.drop 32768).length < kBlockSize
    rw [hdrop]; decide
  have hlt7 : ((c7mid.file).drop c7mid.pos).length < kHeaderSize := by
    show (c7file.drop 32768).length < kHeaderSize
    rw [hdrop]; decide
  obtain ⟨r1, hphys2, hrep2, _⟩ := readPhysical_tail c7mid rfl rfl htail (Or.inl hlt7)
  obtain ⟨r2, hstep2, hrep3⟩ := step_of_eof c7mid false [] 0 r1 hphys2
  rw [readRecord_of_noskip _ c7_noskip, c7fuel, readRecordAux, hstep1]
  dsimp only
  rw [show (65538 : Nat) = 65537 + 1 from rfl, readRecordAux, hstep2]
  constructor
  · rfl
  · show r2.reports = _
    rw [hrep3, hrep2]
    rfl

theorem reportDrop_pos (r : Reader) (bytes : Nat) (reason : String)
    (h : r.initialOffset ≤ sub64 (sub64 r.endOfBufferOffset r.buffer.length) bytes) :
    reportDrop r bytes reason = { r with reports := r.reports ++ [(bytes, reason)] } := by
  unfold reportDrop
  rw [if_pos h]

theorem reportDrop_neg (r : Reader) (bytes : Nat) (reason : String)
    (h : ¬ (r.initialOffset ≤ sub64 (sub64 r.endOfBufferOffset r.buffer.length) bytes)) :
    reportDrop r bytes reason = r := by
  unfold reportDrop
  rw [if_neg h]

theorem reports_append_ne (l : List (Nat × String)) (x : Nat × String) :
    l ++ [x] ≠ l := by
  simp

theorem reportDrop_reports_ne_iff (r : Reader) (bytes : Nat) (reason : String) :
    ((reportDrop r bytes reason).reports ≠ r.reports ↔
      r.initialOffset ≤ sub64 (sub64 r.endOfBufferOffset r.buffer.length) bytes) := by
  by_cases h : r.initialOffset ≤ sub64 (sub64 r.endOfBufferOffset r.buffer.length) bytes
  · rw [reportDrop_pos r bytes reason h]
    simp only [h, iff_true]
    exact reports_append_ne r.reports (bytes, reason)
  · rw [reportDrop_neg r bytes reason h]
    simp [h]

theorem readPhysical_of_header (r : Reader) (hB : kHeaderSize ≤ r.buffer.length) :
    readPhysical r = parsePhysical r := by
  unfold readPhysical
  rw [if_neg (by omega)]

theorem parsePhysical_badlen (r : Reader)
    (hlen : r.buffer.length < kHeaderSize + declaredLen r.buffer) (heof : r.eofFlag = false) :
    parsePhysical r =
      (.bad, reportDrop { r with buffer := ([] : List Nat) } r.buffer.length
        "bad record length") := by
  unfold parsePhysical
  dsimp only
  rw [if_pos (by omega), if_pos heof]

theorem parsePhysical_crcfail (r : Reader)
    (hlen : kHeaderSize + declaredLen r.buffer ≤ r.buffer.length)
    (hzero : ¬ (r.buffer.getD 6 0 = kZeroType ∧ declaredLen r.buffer = 0))
    (hcs : r.checksum = true)
    (hcrc : crc32c ((r.buffer.drop 6).take (1 + declaredLen r.buffer)) ≠
      unmask (Coding.decodeFixed32 r.buffer)) :
    parsePhysical r =
      (.bad, reportDrop { r with buffer := ([] : List Nat) } r.buffer.length
        "checksum mismatch") := by
  unfold parsePhysical
  dsimp only
  rw [if_neg (by omega), if_neg hzero, if_pos ⟨hcs, hcrc⟩]

theorem cleared_report_iff (r : Reader) (msg : String)
    (heob : r.endOfBufferOffset = r.pos) (hble : r.buffer.length ≤ r.pos)
    (hpos : r.pos < 2^64) :
    ((reportDrop { r with buffer := ([] : List Nat) } r.buffer.length msg).reports ≠ r.reports
      ↔ r.initialOffset ≤ r.pos - r.buffer.length) := by
  rw [reportDrop_reports_ne_iff]
  show r.initialOffset ≤ sub64 (sub64 r.endOfBufferOffset (List.length [])) r.buffer.length ↔ _
  rw [heob, show List.length ([] : List Nat) = 0 from rfl,
    sub64_eq_sub r.pos 0 (Nat.zero_le _) hpos, Nat.sub_zero,
    sub64_eq_sub r.pos r.buffer.length hble hpos]

theorem parsePhysical_frag_elim (r : Reader) (t : Nat) (frag : List Nat) (r2 : Reader)
    (h : parsePhysical r = (.frag t frag, r2)) :
    t = r.buffer.getD 6 0 ∧
    frag = (r.buffer.drop kHeaderSize).take (declaredLen r.buffer) ∧
    r2 = { r with buffer := r.buffer.drop (kHeaderSize + declaredLen r.buffer) } ∧
    kHeaderSize + declaredLen r.buffer ≤ r.buffer.length := by
  unfold parsePhysical at h
  dsimp only at h
  by_cases h1 : kHeaderSize + declaredLen r.buffer > r.buffer.length
  · rw [if_pos h1] at h
    split at h <;> simp at h
  · rw [if_neg h1] at h
    by_cases h2 : r.buffer.getD 6 0 = kZeroType ∧ declaredLen r.buffer = 0
    · rw [if_pos h2] at h
      simp at h
    · rw [if_neg h2] at h
      by_cases h3 : r.checksum = true ∧
          crc32c ((r.buffer.drop 6).take (1 + declaredLen r.buffer)) ≠
            unmask (Coding.decodeFixed32 r.buffer)
      · rw [if_pos h3] at h
        simp at h
      · rw [if_neg h3] at h
        by_cases h4 : sub64 (sub64 (sub64 r.endOfBufferOffset
            (r.buffer.drop (kHeaderSize + declaredLen r.buffer)).length) kHeaderSize)
            (declaredLen r.buffer) < r.initialOffset
        · rw [if_pos h4] at h
          simp at h
        · rw [if_neg h4] at h
          simp only [Prod.mk.injEq, PhysResult.frag.injEq] at h
          obtain ⟨⟨ht, hfrag⟩, hr2⟩ := h
          exact ⟨ht.symm, hfrag.symm, hr2.symm, by omega⟩

theorem step_unknown_type (r : Reader) (inFrag : Bool) (scratch : List Nat) (prosp : Nat)
    (t : Nat) (frag : List Nat) (r2 : Reader)
    (hres : r.resyncing = false)
    (hphys : readPhysical r = (.frag t frag, r2))
    (htype : t = kZeroType ∨ kLastType < t) :
    readRecordStep r inFrag scratch prosp =
      .cont (reportDrop r2 (frag.length + if inFrag = true then scratch.length else 0)
        "unknown record type") false [] prosp := by
  have hres2 : r2.resyncing = false := by
    have h := readPhysical_resyncing r
    rw [hphys] at h
    rw [← hres]
    exact h
  have htn : t = 0 ∨ 4 < t := htype
  unfold readRecordStep
  rw [hphys]
  dsimp only
  rw [if_neg (by simp [hres2])]
  unfold handleSwitch
  dsimp only
  rw [if_neg (show ¬ (t = kFullType) by simp only [kFullType]; omega),
      if_neg (show ¬ (t = kFirstType) by simp only [kFirstType]; omega),
      if_neg (show ¬ (t = kMiddleType) by simp only [kMiddleType]; omega),
      if_neg (show ¬ (t = kLastType) by simp only [kLastType]; omega)]

theorem unknown_report_iff (r : Reader) (inFrag : Bool) (scratch : List Nat) (prosp : Nat)
    (t : Nat) (frag : List Nat) (r2 : Reader)
    (heob : r.endOfBufferOffset = r.pos) (hble : r.buffer.length ≤ r.pos)
    (hpos : r.pos < 2^64) (hB : kHeaderSize ≤ r.buffer.length)
    (hres : r.resyncing = false)
    (hphys : readPhysical r = (.frag t frag, r2))
    (htype : t = kZeroType ∨ kLastType < t)
    (hs : (if inFrag = true then scratch.length else 0) ≤
      r.pos + kHeaderSize - r.buffer.length) :
    ((stepReader (readRecordStep r inFrag scratch prosp)).reports ≠ r2.reports ↔
      r.initialOffset ≤ r.pos + kHeaderSize - r.buffer.length -
        (if inFrag = true then scratch.length else 0)) := by
  obtain ⟨ht, hfrag, hr2, hle⟩ := parsePhysical_frag_elim r t frag r2
    (by rw [← readPhysical_of_header r hB]; exact hphys)
  rw [step_unknown_type r inFrag scratch prosp t frag r2 hres hphys htype]
  show (reportDrop r2 _ _).reports ≠ r2.reports ↔ _
  rw [reportDrop_reports_ne_iff]
  have hfl : frag.length = declaredLen r.buffer := by
    rw [hfrag, List.length_take, List.length_drop]
    simp only [kHeaderSize] at hle ⊢
    omega
  have hb2 : r2.buffer.length = r.buffer.length - (kHeaderSize + declaredLen r.buffer) := by
    rw [hr2]
    exact List.length_drop _ _
  have heob2 : r2.endOfBufferOffset = r.pos := by rw [hr2]; exact heob
  have hinit2 : r2.initialOffset = r.initialOffset := by rw [hr2]
  rw [heob2, hinit2, hb2, hfl]
  simp only [kHeaderSize] at hle hs ⊢
  rw [sub64_eq_sub r.pos _ (by omega) hpos]
  rw [sub64_eq_sub _ _ (by omega) (by omega)]
  omega

theorem skipToInitialBlock_mkReader (f : List Nat) (cs : Bool) (io : Nat) :
    (skipToInitialBlock (mkReader f cs io)).endOfBufferOffset =
      (if io % kBlockSize > kBlockSize - 6 then io - io % kBlockSize + kBlockSize
       else io - io % kBlockSize) ∧
    (skipToInitialBlock (mkReader f cs io)).pos =
      (if io % kBlockSize > kBlockSize - 6 then io - io % kBlockSize + kBlockSize
       else io - io % kBlockSize) := by
  unfold skipToInitialBlock mkReader
  dsimp only
  by_cases h1 : io % kBlockSize > kBlockSize - 6
  · rw [if_pos h1]
    by_cases h2 : io - io % kBlockSize + kBlockSize > 0
    · rw [if_pos h2]
      refine ⟨rfl, ?_⟩
      show 0 + (io - io % kBlockSize + kBlockSize) = io - io % kBlockSize + kBlockSize
      omega
    · rw [if_neg h2]
      constructor
      · rfl
      · show (0 : Nat) = io - io % kBlockSize + kBlockSize
        omega
  · rw [if_neg h1]
    by_cases h2 : io - io % kBlockSize > 0
    · rw [if_pos h2]
      refine ⟨rfl, ?_⟩
      show 0 + (io - io % kBlockSize) = io - io % kBlockSize
      omega
    · rw [if_neg h2]
      constructor
      · rfl
      · show (0 : Nat) = io - io % kBlockSize
        omega

theorem step_resync_middle (r : Reader) (inFrag : Bool) (scratch : List Nat) (prosp : Nat)
    (frag : List Nat) (r2 : Reader)
    (hres : r.resyncing = true)
    (hphys : readPhysical r = (.frag kMiddleType frag, r2)) :
    readRecordStep r inFrag scratch prosp = .cont r2 inFrag scratch prosp := by
  have hres2 : r2.resyncing = true := by
    have h := readPhysical_resyncing r
    rw [hphys] at h
    rw [← hres]
    exact h
  unfold readRecordStep
  rw [hphys]
  dsimp only
  rw [if_pos hres2, if_pos rfl]

theorem step_resync_last (r : Reader) (inFrag : Bool) (scratch : List Nat) (prosp : Nat)
    (frag : List Nat) (r2 : Reader)
    (hres : r.resyncing = true)
    (hphys : readPhysical r = (.frag kLastType frag, r2)) :
    readRecordStep r inFrag scratch prosp =
      .cont { r2 with resyncing := false } inFrag scratch prosp := by
  have hres2 : r2.resyncing = true := by
    have h := readPhysical_resyncing r
    rw [hphys] at h
    rw [← hres]
    exact h
  unfold readRecordStep
  rw [hphys]
  dsimp only
  rw [if_pos hres2, if_neg (by decide : ¬ (kLastType = kMiddleType)), if_pos rfl]

theorem step_full_empty_scratch (r : Reader) (prosp : Nat) (frag : List Nat) (r2 : Reader)
    (hres : r.resyncing = false)
    (hphys : readPhysical r = (.frag kFullType frag, r2)) :
    readRecordStep r true [] prosp =
      .done (some frag)
        { r2 with lastRecordOffset := sub64 r.endOfBufferOffset r.buffer.length } := by
  have hres2 : ¬ (r2.resyncing = true) := by
    have h : r2.resyncing = r.resyncing := by
      have h0 := readPhysical_resyncing r
      rw [hphys] at h0
      exact h0
    simp [h, hres]
  unfold readRecordStep
  rw [hphys]
  dsimp only
  rw [if_neg hres2]
  unfold handleSwitch
  dsimp only
  rw [if_pos rfl, if_neg (by simp)]

theorem step_first_empty_scratch (r : Reader) (prosp : Nat) (frag : List Nat) (r2 : Reader)
    (hres : r.resyncing = false)
    (hphys : readPhysical r = (.frag kFirstType frag, r2)) :
    readRecordStep r true [] prosp =
      .cont r2 true frag (sub64 r.endOfBufferOffset r.buffer.length) := by
  have hres2 : ¬ (r2.resyncing = true) := by
    have h : r2.resyncing = r.resyncing := by
      have h0 := readPhysical_resyncing r
      rw [hphys] at h0
      exact h0
    simp [h, hres]
  unfold readRecordStep
  rw [hphys]
  dsimp only
  rw [if_neg hres2]
  unfold handleSwitch
  dsimp only
  rw [if_neg (by decide : ¬ (kFirstType = kFullType)), if_pos rfl, if_neg (by simp)]

theorem step_full_nonempty_scratch (r : Reader) (prosp : Nat) (frag scratch : List Nat)
    (r2 : Reader) (hne : scratch ≠ [])
    (hres : r.resyncing = false)
    (hphys : readPhysical r = (.frag kFullType frag, r2)) :
    readRecordStep r true scratch prosp =
      .done (some frag)
        { reportDrop r2 scratch.length "partial record without end(1)" with
            lastRecordOffset := sub64 r.endOfBufferOffset r.buffer.length } := by
  have hres2 : ¬ (r2.resyncing = true) := by
    have h : r2.resyncing = r.resyncing := by
      have h0 := readPhysical_resyncing r
      rw [hphys] at h0
      exact h0
    simp [h, hres]
  unfold readRecordStep
  rw [hphys]
  dsimp only
  rw [if_neg hres2]
  unfold handleSwitch
  dsimp only
  rw [if_pos rfl, if_pos ⟨rfl, hne⟩]

theorem step_first_nonempty_scratch (r : Reader) (prosp : Nat) (frag scratch : List Nat)
    (r2 : Reader) (hne : scratch ≠ [])
    (hres : r.resyncing = false)
    (hphys : readPhysical r = (.frag kFirstType frag, r2)) :
    readRecordStep r true scratch prosp =
      .cont (reportDrop r2 scratch.length "partial record without end(2)") true frag
        (sub64 r.endOfBufferOffset r.buffer.length) := by
  have hres2 : ¬ (r2.resyncing = true) := by
    have h : r2.resyncing = r.resyncing := by
      have h0 := readPhysical_resyncing r
      rw [hphys] at h0
      exact h0
    simp [h, hres]
  unfold readRecordStep
  rw [hphys]
  dsimp only
  rw [if_neg hres2]
  unfold handleSwitch
  dsimp only
  rw [if_neg (by decide : ¬ (kFirstType = kFullType)), if_pos rfl, if_pos ⟨rfl, hne⟩]

/-- C8: a bad record (over-long declared length away from EOF, checksum
mismatch, or unknown record type) invokes the reporter iff the failing bytes
lie at or after `initial_offset`; bytes before the seek point are never
reported. -/
theorem corruption_reported_iff_after_initial_offset (r : Reader) (inFrag : Bool)
    (scratch : List Nat) (prosp : Nat)
    (heob : r.endOfBufferOffset = r.pos) (hble : r.buffer.length ≤ r.pos)
    (hpos : r.pos < 2^64) (hB : kHeaderSize ≤ r.buffer.length) :
    ((r.buffer.length < kHeaderSize + declaredLen r.buffer → r.eofFlag = false →
      ((readPhysical r).2.reports ≠ r.reports ↔
        r.initialOffset ≤ r.pos - r.buffer.length)) ∧
     (kHeaderSize + declaredLen r.buffer ≤ r.buffer.length →
      ¬ (r.buffer.getD 6 0 = kZeroType ∧ declaredLen r.buffer = 0) →
      r.checksum = true →
      crc32c ((r.buffer.drop 6).take (1 + declaredLen r.buffer)) ≠
        unmask (Coding.decodeFixed32 r.buffer) →
      ((readPhysical r).2.reports ≠ r.reports ↔
        r.initialOffset ≤ r.pos - r.buffer.length)) ∧
     (∀ (t : Nat) (frag : List Nat) (r2 : Reader),
      r.resyncing = false →
      readPhysical r = (.frag t frag, r2) →
      (t = kZeroType ∨ kLastType < t) →
      (if inFrag = true then scratch.length else 0) ≤
        r.pos + kHeaderSize - r.buffer.length →
      ((stepReader (readRecordStep r inFrag scratch prosp)).reports ≠ r2.reports ↔
        r.initialOffset ≤ r.pos + kHeaderSize - r.buffer.length -
          (if inFrag = true then scratch.length else 0)))) := by
  refine ⟨?_, ?_, ?_⟩
  · intro h1 h2
    rw [readPhysical_of_header r hB, parsePhysical_badlen r h1 h2]
    exact cleared_report_iff r _ heob hble hpos
  · intro h1 h2 h3 h4
    rw [readPhysical_of_header r hB, parsePhysical_crcfail r h1 h2 h3 h4]
    exact cleared_report_iff r _ heob hble hpos
  · intro t frag r2 hres hphys htype hs
    exact unknown_report_iff r inFrag scratch prosp t frag r2 heob hble hpos hB hres
      hphys htype hs

theorem corruption_reported_iff_after_initial_offset_witness :
    (readPhysical c8reader1).2.reports ≠ c8reader1.reports ∧
    (readPhysical c8reader2).2.reports ≠ c8reader2.reports ∧
    (stepReader (readRecordStep c8reader3 false [] 0)).reports ≠
      ({ c8reader3 with buffer := ([] : List Nat) }).reports ∧
    ¬ ((readPhysical c8reader4).2.reports ≠ c8reader4.reports) := by
  refine ⟨?_, ?_, ?_, ?_⟩
  · exact ((corruption_reported_iff_after_initial_offset c8reader1 false [] 0 rfl (by decide)
      (by decide) (by decide)).1 (by decide) rfl).mpr (by decide)
  · exact ((corruption_reported_iff_after_initial_offset c8reader2 false [] 0 rfl (by decide)
      (by decide) (by decide)).2.1 (by decide) (by decide) rfl (by decide)).mpr (by decide)
  · exact ((corruption_reported_iff_after_initial_offset c8reader3 false [] 0 rfl (by decide)
      (by decide) (by decide)).2.2 9 [77] { c8reader3 with buffer := ([] : List Nat) } rfl
      (by decide) (by decide) (by decide)).mpr (by decide)
  · intro hne
    exact absurd (((corruption_reported_iff_after_initial_offset c8reader4 false [] 0 rfl
      (by decide) (by decide) (by decide)).1 (by decide) rfl).mp hne) (by decide)

/-- C9 (amended): a reader constructed over `initial_offset` computes the
start of the block containing it, advancing to the next block exactly when
the in-block offset exceeds `kBlockSize - 6` (the last five byte offsets),
and both skips the file and sets `end_of_buffer_offset_` there; while
`resyncing_`, a MIDDLE fragment is skipped silently and a LAST fragment is
skipped silently and clears the flag. -/
theorem skip_to_initial_block_and_resync :
    (∀ (f : List Nat) (cs : Bool) (io : Nat),
      io % kBlockSize ≤ kBlockSize - 6 →
        (skipToInitialBlock (mkReader f cs io)).endOfBufferOffset = io - io % kBlockSize ∧
        (skipToInitialBlock (mkReader f cs io)).pos = io - io % kBlockSize) ∧
    (∀ (f : List Nat) (cs : Bool) (io : Nat),
      kBlockSize - 6 < io % kBlockSize →
        (skipToInitialBlock (mkReader f cs io)).endOfBufferOffset =
          io - io % kBlockSize + kBlockSize ∧
        (skipToInitialBlock (mkReader f cs io)).pos =
          io - io % kBlockSize + kBlockSize) ∧
    (∀ (r : Reader) (inFrag : Bool) (scratch : List Nat) (prosp : Nat)
        (frag : List Nat) (r2 : Reader),
      r.resyncing = true →
      (readPhysical r = (.frag kMiddleType frag, r2) →
        readRecordStep r inFrag scratch prosp = .cont r2 inFrag scratch prosp) ∧
      (readPhysical r = (.frag kLastType frag, r2) →
        readRecordStep r inFrag scratch prosp =
          .cont { r2 with resyncing := false } inFrag scratch prosp)) := by
  refine ⟨?_, ?_, ?_⟩
  · intro f cs io h
    have hs := skipToInitialBlock_mkReader f cs io
    rw [if_neg (by omega)] at hs
    exact hs
  · intro f cs io h
    have hs := skipToInitialBlock_mkReader f cs io
    rw [if_pos (by omega)] at hs
    exact hs
  · intro r inFrag scratch prosp frag r2 hres
    exact ⟨fun h => step_resync_middle r inFrag scratch prosp frag r2 hres h,
           fun h => step_resync_last r inFrag scratch prosp frag r2 hres h⟩

theorem skip_to_initial_block_and_resync_witness :
    (skipToInitialBlock (mkReader [] true 5)).endOfBufferOffset = 0 ∧
    (skipToInitialBlock (mkReader [] true 40000)).endOfBufferOffset = 32768 ∧
    (skipToInitialBlock (mkReader [] true 32767)).endOfBufferOffset = 32768 ∧
    readRecordStep c9reader false [] 0 = .cont c9readerAfter false [] 0 := by
  refine ⟨?_, ?_, ?_, ?_⟩
  · have h := (skip_to_initial_block_and_resync.1 [] true 5 (by decide)).1
    rw [h]
    decide
  · have h := (skip_to_initial_block_and_resync.1 [] true 40000 (by decide)).1
    rw [h]
    decide
  · have h := (skip_to_initial_block_and_resync.2.1 [] true 32767 (by decide)).1
    rw [h]
    decide
  · exact (skip_to_initial_block_and_resync.2.2 c9reader false [] 0 [99] c9readerAfter
      rfl).1 (by decide)

/-- C9 counterexample: `initial_offset = 32762` lies in the 6-byte block
trailer zone, yet the reader stays in block 0. -/
theorem skip_trailer_zone_counterexample :
    kBlockSize - 6 ≤ 32762 ∧ 32762 < kBlockSize ∧
    (skipToInitialBlock (mkReader [] true 32762)).endOfBufferOffset = 0 ∧
    (skipToInitialBlock (mkReader [] true 32762)).pos = 0 ∧
    ¬ ((skipToInitialBlock (mkReader [] true 32762)).endOfBufferOffset = kBlockSize) := by
  decide

/-- C10: with `in_fragmented_record` set and empty scratch, a FULL record is
returned and a FIRST restarts, both silently; the partial-record report
happens only with non-empty scratch. -/
theorem empty_first_then_full_silent (r : Reader) (prosp : Nat) (frag scratch : List Nat)
    (r2 : Reader) (hres : r.resyncing = false) :
    ((readPhysical r = (.frag kFullType frag, r2) →
      readRecordStep r true [] prosp =
        .done (some frag)
          { r2 with lastRecordOffset := sub64 r.endOfBufferOffset r.buffer.length }) ∧
     (readPhysical r = (.frag kFirstType frag, r2) →
      readRecordStep r true [] prosp =
        .cont r2 true frag (sub64 r.endOfBufferOffset r.buffer.length)) ∧
     (scratch ≠ [] → readPhysical r = (.frag kFullType frag, r2) →
      readRecordStep r true scratch prosp =
        .done (some frag)
          { reportDrop r2 scratch.length "partial record without end(1)" with
              lastRecordOffset := sub64 r.endOfBufferOffset r.buffer.length }) ∧
     (scratch ≠ [] → readPhysical r = (.frag kFirstType frag, r2) →
      readRecordStep r true scratch prosp =
        .cont (reportDrop r2 scratch.length "partial record without end(2)") true frag
          (sub64 r.endOfBufferOffset r.buffer.length))) :=
  ⟨fun h => step_full_empty_scratch r prosp frag r2 hres h,
   fun h => step_first_empty_scratch r prosp frag r2 hres h,
   fun hne h => step_full_nonempty_scratch r prosp frag scratch r2 hne hres h,
   fun hne h => step_first_nonempty_scratch r prosp frag scratch r2 hne hres h⟩

theorem empty_first_then_full_silent_witness :
    readRecordStep c10reader true [] 0 =
      .done (some [88]) { c10readerAfter with lastRecordOffset := 0 } ∧
    readRecordStep c10reader true [55] 0 =
      .done (some [88])
        { c10readerAfter with
            lastRecordOffset := 0
            reports := [(1, "partial record without end(1)")] } := by
  constructor
  · exact (empty_first_then_full_silent c10reader 0 [88] [] c10readerAfter rfl).1 (by decide)
  · exact (empty_first_then_full_silent c10reader 0 [88] [55] c10readerAfter rfl).2.2.1
      (by decide) (by decide)

end LogReader

